import Mathlib

/-!
Verification of the conda_curation PackageRelations engine and its driver.

This file shallowly embeds the Rust sources (src/packagerelations.rs,
src/main.rs, src/logs.rs) into Lean.  Package records, the removal bitmap,
the per-name index ranges and the dependency-edge table become plain data;
machine integers become `Nat` (the u32/u16 overflow asserts in the source
abort the program rather than wrap, so no modular arithmetic is needed).

Matchspec parsing and matching live in the external rattler library, which
the engine only ever calls through `matchspec.matches(record)` on the
interned constraint string; we therefore parametrise every operation that
matches by a function `M : String → Rec → Bool` taking the raw constraint
string (interning maps equal strings to one value, so the string itself is
a faithful stand-in for the interned reference).  Likewise the dev/rc
version-component test of `apply_dev_rc_ban` is a rattler computation over
the parsed version; it is passed in as a predicate parameter.
-/

namespace CondaCuration

/-- A package record, as consumed by the engine (rattler `PackageRecord`):
name, version (the engine only compares versions for equality when grouping,
so the raw string suffices here), build string, build number, the optional
`features` tag, the `track_features` list, and the raw dependency clauses. -/
structure Rec where
  name : String
  version : String
  build : String
  buildNumber : Nat
  features : Option String
  trackFeatures : List String
  depends : List String
deriving DecidableEq, Repr, Inhabited

/-- `PackageMetadata` from packagerelations.rs: a filename plus the record. -/
structure PM where
  filename : String
  record : Rec
deriving DecidableEq, Repr, Inhabited

/-- `PackageDependency` from packagerelations.rs.  The matchspec reference is
identified with its source string (the interning cache maps equal strings to
the same reference).  `lastSuccessfulResolution` is the u16 offset within the
dependency name's provider range; `dependers` holds package ids. -/
structure Edge where
  unsatisfiable : Bool
  lastSuccessfulResolution : Option Nat
  dependers : List Nat
deriving DecidableEq, Repr, Inhabited

/-- The `PackageRelations` state.  `edges` flattens the nested
`HashMap<name, HashMap<spec, PackageDependency>>` into an association list
keyed by `(dependency_name, spec_string)`; `nameRanges` is the
`package_name_to_providers` map as an association list name ↦ (start, count).
`filename_to_metadata` is recovered by searching `packageMetadatas`. -/
structure PR where
  removed : List Bool
  packageMetadatas : List PM
  edges : List (String × String × Edge)
  nameRanges : List (String × Nat × Nat)
deriving DecidableEq, Repr, Inhabited

/-- The empty engine (`PackageRelations::new`; capacities are not modelled). -/
def emptyPR : PR := { removed := [], packageMetadatas := [], edges := [], nameRanges := [] }

/-- Read a bit of the removal bitmap (`self.removed[i]`). -/
def removedAt (st : PR) (i : Nat) : Bool := st.removed.getD i false

/-- Record at id `i` (`self.package_metadatas[i].package_record`). -/
def recAt (st : PR) (i : Nat) : Rec := (st.packageMetadatas.getD i default).record

/-- Filename at id `i` (`self.package_metadatas[i].filename`). -/
def filenameAt (st : PR) (i : Nat) : String := (st.packageMetadatas.getD i default).filename

/-- The `filename_to_metadata` lookup: id of the record with this filename.
The Rust map holds the id inserted for the filename; filenames are unique in
any real index, which theorems assume through a `Nodup` hypothesis. -/
def filenameIdx (st : PR) (f : String) : Nat :=
  st.packageMetadatas.findIdx (fun pm => pm.filename == f)

/-- Look up a name's provider range (`package_name_to_providers.get`). -/
def lookupRange (st : PR) (name : String) : Option (Nat × Nat) :=
  (st.nameRanges.find? (fun x => x.1 == name)).map (·.2)

/-- `mkrange`: the id range of a name, empty when the name is unknown. -/
def mkrange (st : PR) (name : String) : List Nat :=
  match lookupRange st name with
  | some (s, c) => List.range' s c
  | none => []

/-- `dependsstr_to_name_and_spec`: split a dependency clause at the first
whitespace run into the dependency name and the constraint string (empty when
the clause is a bare name). -/
def dependsToNameSpec (d : String) : String × String :=
  let cs := d.toList
  let name := (cs.dropWhile Char.isWhitespace).takeWhile (fun c => ¬ c.isWhitespace)
  if name.length = cs.length then (String.mk name, "")
  else (String.mk name, String.mk (cs.drop (name.length + 1)))

/-- Extend the provider range for `name` on insertion of the id `index`:
`entry(name).or_insert((index, 0))` followed by `offset += 1` (and the
`index == 0` branch of `insert`, which coincides with this on the then-empty
map). -/
def bumpRange : List (String × Nat × Nat) → String → Nat → List (String × Nat × Nat)
  | [], name, index => [(name, index, 1)]
  | (n, s, c) :: rest, name, index =>
    if n = name then (n, s, c + 1) :: rest else (n, s, c) :: bumpRange rest name index

/-- Append `idx` to the depender list of the `(dn, spec)` edge, creating the
edge when absent (`entry(..).or_insert_with(..)` then `dependers.push`). -/
def addDepender : List (String × String × Edge) → String → String → Nat →
    List (String × String × Edge)
  | [], dn, spec, idx =>
    [(dn, spec, { unsatisfiable := false, lastSuccessfulResolution := none, dependers := [idx] })]
  | (n, s, e) :: rest, dn, spec, idx =>
    if n = dn ∧ s = spec then
      (n, s, { e with dependers := e.dependers ++ [idx] }) :: rest
    else
      (n, s, e) :: addDepender rest dn spec idx

/-- `PackageRelations::insert`: append the record and its removal bit, extend
the name range, and register the id as a depender of each dependency edge. -/
def insertRec (st : PR) (filename : String) (r : Rec) : PR :=
  let index := st.packageMetadatas.length
  { removed := st.removed ++ [false]
    packageMetadatas := st.packageMetadatas ++ [{ filename := filename, record := r }]
    nameRanges := bumpRange st.nameRanges r.name index
    edges := r.depends.foldl
      (fun es d =>
        let ns := dependsToNameSpec d
        addDepender es ns.1 ns.2 index)
      st.edges }

/-- Build a graph by inserting a (filename, record) list in order, as the
driver does after `rawrepodata::sorted_iter`. -/
def buildRelations (rs : List (String × Rec)) : PR :=
  rs.foldl (fun st fr => insertRec st fr.1 fr.2) emptyPR

/-- `shrink_to_fit` only trims container capacities, which the model does not
carry; it is the identity on the observable state. -/
def shrinkToFit (st : PR) : PR := st

/-- Set one removal bit (`self.removed.set(index, true)`). -/
def setRemovedIdx (st : PR) (i : Nat) : PR := { st with removed := st.removed.set i true }

/-- Remove a package by filename, as the per-pass loops do:
`self.removed.set(self.filename_to_metadata[res.filename].index(), true)`. -/
def removeByFilename (st : PR) (f : String) : PR := setRemovedIdx st (filenameIdx st f)

/-- Apply `removeByFilename` for every log filename of a pass. -/
def massRemove (st : PR) (fns : List String) : PR := fns.foldl removeByFilename st

/-- Log record `RemovedByUserLog`. -/
structure ByUserLog where
  filename : String
  packageName : String
deriving DecidableEq, Repr

/-- Log record `RemovedBySupercedingBuildLog`. -/
structure BuildLog where
  filename : String
  packageName : String
  buildNumber : Nat
deriving DecidableEq, Repr

/-- Log record `RemovedWithFeatureLog`. -/
structure FeatureLog where
  filename : String
  packageName : String
  feature : String
deriving DecidableEq, Repr

/-- Log record `RemovedByDevRcPolicyLog`. -/
structure DevRcLog where
  filename : String
  packageName : String
deriving DecidableEq, Repr

/-- Log record `RemovedIncompatibleArchitectureLog`. -/
structure ArchLog where
  filename : String
  packageName : String
  virtualPackage : String
  actualArchitecture : String
deriving DecidableEq, Repr

/-- Log record `RemovedBecauseIncompatibleLog`. -/
structure IncompatLog where
  filename : String
  packageName : String
  incompatibleWith : String
deriving DecidableEq, Repr

/-- Log record `RemovedUnsatisfiableLog` (the matchspec field is the interned
constraint string). -/
structure UnsatLog where
  filename : String
  packageName : String
  dependencyPackageName : String
  matchspec : String
  causeFilename : Option String
deriving DecidableEq, Repr

/-! ## apply_matchspecs / apply_user_matchspecs -/

/-- One iteration of the `apply_matchspecs` loop: an id not already removed
is kept iff some spec matches, otherwise its removal bit is set immediately
and a `RemovedByUserLog` emitted. -/
def msStep (M : String → Rec → Bool) (specs : List String) (acc : List ByUserLog × PR)
    (index : Nat) : List ByUserLog × PR :=
  if removedAt acc.2 index then acc
  else if specs.any (fun sp => M sp (recAt acc.2 index)) then acc
  else
    (acc.1 ++ [{ filename := filenameAt acc.2 index,
                 packageName := (recAt acc.2 index).name }],
     setRemovedIdx acc.2 index)

/-- `apply_matchspecs`: walk the name's id range ascending applying
`msStep`; an unknown name does nothing. -/
def applyMatchspecs (M : String → Rec → Bool) (st : PR) (packageName : String)
    (specs : List String) : List ByUserLog × PR :=
  match lookupRange st packageName with
  | none => ([], st)
  | some (start, cnt) => (List.range' start cnt).foldl (msStep M specs) ([], st)

/-- One entry of the `apply_user_matchspecs` loop. -/
def umStep (M : String → Rec → Bool) (acc : List ByUserLog × PR)
    (pn : String × List String) : List ByUserLog × PR :=
  let r := applyMatchspecs M acc.2 pn.1 pn.2
  (acc.1 ++ r.1, r.2)

/-- `apply_user_matchspecs`: run `apply_matchspecs` for every
(name, constraint list) entry, concatenating the logs. -/
def applyUserMatchspecs (M : String → Rec → Bool) (st : PR)
    (ums : List (String × List String)) : List ByUserLog × PR :=
  ums.foldl (umStep M) ([], st)

/-! ## apply_build_prune -/

/-- ASCII reading of the regex character class `[\da-zA-Z]`. -/
def isAlnumAscii (c : Char) : Bool := c.isDigit || c.isAlpha

/-- `is_match` of the regex `.*h[\da-zA-Z]{7}.+\d`: somewhere in the string an
`h` followed by seven alphanumerics, then at least one further character, then
a digit. -/
def hashPattern (s : String) : Bool :=
  let cs := s.toList
  (List.range cs.length).any (fun i =>
    cs.getD i ' ' == 'h' &&
    decide (i + 8 ≤ cs.length) &&
    (List.range 7).all (fun k => isAlnumAscii (cs.getD (i + 1 + k) ' ')) &&
    (List.range cs.length).any (fun j => decide (i + 9 ≤ j) && (cs.getD j ' ').isDigit))

/-- The build string with a trailing occurrence of `build_number.to_string()`
stripped, as computed inside the `chunk_by` key (`ends_with` is rendered as a
character-list suffix test, which agrees with the byte-wise test on ASCII
build strings). -/
def strippedOf (r : Rec) : String :=
  let bns := (toString r.buildNumber).toList
  let bl := r.build.toList
  if bns.isSuffixOf bl then (bl.take (bl.length - bns.length)).asString else r.build

/-- The `chunk_by` grouping key `(name, version, stripped build)`. -/
def buildKey (r : Rec) : String × String × String := (r.name, r.version, strippedOf r)

/-- Group consecutive elements with equal keys (itertools `chunk_by`). -/
def chunkBy {α κ : Type} [DecidableEq κ] (key : α → κ) : List α → List (List α)
  | [] => []
  | a :: as =>
    match chunkBy key as with
    | [] => [[a]]
    | [] :: gs => [a] :: [] :: gs
    | (b :: g) :: gs =>
      if key a = key b then (a :: b :: g) :: gs else [a] :: (b :: g) :: gs

/-- `apply_build_prune`: filter the record list to builds matching the hash
pattern, group consecutively by `(name, version, stripped build)`, and in each
group of size ≥ 2 log (and then remove by filename) every member other than
the last whose build number is below the last member's build number `big`;
each log carries `build_number = big`. -/
def applyBuildPrune (st : PR) : List BuildLog × PR :=
  let groups := chunkBy (fun pm => buildKey pm.record)
    (st.packageMetadatas.filter (fun pm => hashPattern pm.record.build))
  let logs := groups.flatMap (fun g =>
    if g.length < 2 then []
    else
      let big := (g.getLastD default).record.buildNumber
      g.dropLast.filterMap (fun pm =>
        if pm.record.buildNumber < big then
          some { filename := pm.filename,
                 packageName := (g.headD default).record.name,
                 buildNumber := big }
        else none))
  (logs, massRemove st (logs.map (·.filename)))

/-! ## apply_feature_removal and apply_dev_rc_ban -/

/-- The per-record test of `apply_feature_removal`: the banned feature that
removes the record, if any — the singular `features` tag when banned,
otherwise the first banned entry of `track_features`. -/
def featureHit (features : List String) (r : Rec) : Option String :=
  match r.features with
  | some f => if features.contains f then some f else r.trackFeatures.find? features.contains
  | none => r.trackFeatures.find? features.contains

/-- `apply_feature_removal`: empty ban set returns immediately; otherwise log
every record with a banned feature and remove the logged filenames. -/
def applyFeatureRemoval (features : List String) (st : PR) : List FeatureLog × PR :=
  if features.isEmpty then ([], st)
  else
    let logs := st.packageMetadatas.filterMap (fun pm =>
      (featureHit features pm.record).map (fun f =>
        { filename := pm.filename, packageName := pm.record.name, feature := f }))
    (logs, massRemove st (logs.map (·.filename)))

/-- `apply_dev_rc_ban`.  The per-record version-component test (`is_dev`, the
`rc` prefix test over parsed version components) is rattler library code; it
enters as the predicate `devrc banDev banRc record`.  Both flags false returns
immediately; otherwise log every record the predicate hits and remove the
logged filenames. -/
def applyDevRcBan (devrc : Bool → Bool → Rec → Bool) (banDev banRc : Bool) (st : PR) :
    List DevRcLog × PR :=
  if ¬ (banDev || banRc) then ([], st)
  else
    let logs := st.packageMetadatas.filterMap (fun pm =>
      if devrc banDev banRc pm.record then
        some { filename := pm.filename, packageName := pm.record.name }
      else none)
    (logs, massRemove st (logs.map (·.filename)))

/-! ## apply_incompatible_architecture -/

/-- The OS token of an architecture tag: the prefix before the first `-`
(`splitn(2, '-').next()`). -/
def osToken (architecture : String) : String :=
  (architecture.toList.takeWhile (fun c => c ≠ '-')).asString

/-- `get_virtual_package_bans`: map the OS token to the banned virtual
package names. -/
def getVirtualPackageBans (architecture : String) : List String :=
  if osToken architecture = "osx" ∨ osToken architecture = "freebsd" then
    ["__linux", "__win", "__glibc"]
  else if osToken architecture = "linux" then ["__osx", "__win"]
  else if osToken architecture = "win" then ["__linux", "__unix", "__glibc", "__osx"]
  else []

/-- Mark every edge keyed by the dependency name `dn` unsatisfiable
(the `for dependency in matchspec_map.values_mut()` loop). -/
def banEdges (es : List (String × String × Edge)) (dn : String) :
    List (String × String × Edge) :=
  es.map (fun x => if x.1 = dn then (x.1, x.2.1, { x.2.2 with unsatisfiable := true }) else x)

/-- `apply_incompatible_architecture`: one log per (edge under a banned
virtual name, depender); then remove all logged filenames and mark every edge
under a banned name unsatisfiable. -/
def applyIncompatibleArchitecture (st : PR) (architecture : String) : List ArchLog × PR :=
  let bans := getVirtualPackageBans architecture
  let logs := bans.flatMap (fun dn =>
    (st.edges.filter (fun x => x.1 == dn)).flatMap (fun x =>
      x.2.2.dependers.map (fun i =>
        { filename := filenameAt st i, packageName := (recAt st i).name,
          virtualPackage := dn, actualArchitecture := architecture })))
  let st1 := massRemove st (logs.map (·.filename))
  (logs, { st1 with edges := bans.foldl banEdges st1.edges })


/-! ## apply_must_compatible -/

/-- Insert into a string set kept as a duplicate-free list (`HashSet::insert`
on names and on interned specs; interning makes spec identity string
equality). -/
def insertSetStr (l : List String) (s : String) : List String :=
  if l.contains s then l else l ++ [s]

/-- Replace (or create) the value of key `k` in an association map
(`HashMap::insert`). -/
def assocReplaceSpecs : List (String × List String) → String → List String →
    List (String × List String)
  | [], k, v => [(k, v)]
  | (k', v') :: rest, k, v =>
    if k' = k then (k', v) :: rest else (k', v') :: assocReplaceSpecs rest k v

/-- Association-map lookup (`HashMap::get`). -/
def assocLookup (m : List (String × List String)) (k : String) : Option (List String) :=
  (m.find? (fun x => x.1 == k)).map (·.2)

/-- `get_dependencies`: the (name, spec) pairs of a record's dependency
clauses; the edge-map lookup in the source only retrieves the interned spec,
which is string-identical to the split clause. -/
def getDependencies (st : PR) (i : Nat) : List (String × String) :=
  (recAt st i).depends.map dependsToNameSpec

/-- Seed `relevant_packages` and `relevant_matchspecs` from the first
surviving variant's dependencies. -/
def mcInit (deps : List (String × String)) : List String × List (String × List String) :=
  deps.foldl
    (fun acc ns => (insertSetStr acc.1 ns.1, assocReplaceSpecs acc.2 ns.1 [ns.2]))
    ([], [])

/-- Process one subsequent surviving variant: union each of its specs into
`relevant_matchspecs` for names already present there, collect
`local_relevant_packages`, then intersect `relevant_packages` with it. -/
def mcStep (st : PR) (acc : List String × List (String × List String)) (idx : Nat) :
    List String × List (String × List String) :=
  let processed := (getDependencies st idx).foldl
    (fun (p : List String × List (String × List String)) ns =>
      match assocLookup p.2 ns.1 with
      | some specs => (insertSetStr p.1 ns.1, assocReplaceSpecs p.2 ns.1 (insertSetStr specs ns.2))
      | none => p)
    ([], acc.2)
  (acc.1.filter processed.1.contains, processed.2)

/-- Walk the remaining surviving variants, short-circuiting as the source does
once `relevant_packages` becomes empty. -/
def mcScan (st : PR) : List Nat → List String × List (String × List String) →
    List String × List (String × List String)
  | [], acc => acc
  | idx :: rest, acc =>
    let acc2 := mcStep st acc idx
    if acc2.1.isEmpty then acc2 else mcScan st rest acc2

/-- Step 4 of `apply_must_compatible`: for each common dependency name run
`apply_matchspecs` with its accumulated spec set and relabel the logs. -/
def mcApplyStep (M : String → Rec → Bool) (packageName : String)
    (specsMap : List (String × List String)) (acc : List IncompatLog × PR) (n : String) :
    List IncompatLog × PR :=
  let specs := (assocLookup specsMap n).getD []
  let r := applyMatchspecs M acc.2 n specs
  (acc.1 ++ r.1.map (fun l =>
    { filename := l.filename, packageName := l.packageName,
      incompatibleWith := packageName }), r.2)

/-- Fold of `mcApplyStep` over the common dependency names. -/
def mcApply (M : String → Rec → Bool) (packageName : String) (names : List String)
    (specsMap : List (String × List String)) (st : PR) : List IncompatLog × PR :=
  names.foldl (mcApplyStep M packageName specsMap) ([], st)

/-- Step 5 of `apply_must_compatible`: recurse on each common dependency name
in turn, threading the state; `f` is the recursive call at the next smaller
fuel. -/
def mcFold (f : PR → String → Option (List IncompatLog × PR)) :
    List String → List IncompatLog → PR → Option (List IncompatLog × PR)
  | [], logs, st => some (logs, st)
  | n :: ns, logs, st =>
    match f st n with
    | none => none
    | some r => mcFold f ns (logs ++ r.1) r.2

/-- `apply_must_compatible`, made total by a fuel parameter bounding the
recursion depth: the Rust function recurses unconditionally on every common
dependency name, so a run that exhausts every fuel bound is a run on which
the source recurses forever. -/
def applyMustCompatible (M : String → Rec → Bool) :
    Nat → PR → String → Option (List IncompatLog × PR)
  | 0, _, _ => none
  | fuel + 1, st, packageName =>
    let alive := (mkrange st packageName).filter (fun i => ¬ removedAt st i)
    match alive with
    | [] => some ([], st)
    | first :: rest =>
      let init := mcInit (getDependencies st first)
      let scanned := mcScan st rest init
      let applied := mcApply M packageName scanned.1 scanned.2 st
      mcFold (applyMustCompatible M fuel) scanned.1 applied.1 applied.2

/-! ## evaluate and find_unresolveables -/

/-- The sentinel start index used when the dependency name has no providers
(`PkgIdx { index: u32::MAX }` with count 0). -/
def u32Max : Nat := 4294967295

/-- The provider range for an edge's dependency name, with the sentinel empty
range for unknown names. -/
def candidatesOf (st : PR) (name : String) : Nat × Nat :=
  match lookupRange st name with
  | some r => r
  | none => (u32Max, 0)

/-- `wrap_range_from_middle`: from `start+middle` to `start+cnt` when a middle
is given (never wrapping back to `start`), otherwise the full range. -/
def searchRange (start cnt : Nat) (middle : Option Nat) : List Nat :=
  match middle with
  | some m => List.range' (start + m) (cnt - m)
  | none => List.range' start cnt

/-- The `Evaluation` proposal type of the evaluate phase, keyed like
`DependencyKey` by dependency name and spec string. -/
inductive Evaluation where
  | updateSolution (name spec : String) (offset : Nat)
  | removeAndLog (name spec : String) (cause : Option Nat)
deriving DecidableEq, Repr

/-- Key of a proposal. -/
def evKey : Evaluation → String × String
  | .updateSolution n s _ => (n, s)
  | .removeAndLog n s _ => (n, s)

/-- A provider id that is not removed and matches the edge's constraint. -/
def aliveMatch (M : String → Rec → Bool) (st : PR) (s : String) (i : Nat) : Bool :=
  !removedAt st i && M s (recAt st i)

/-- A provider id that is removed yet matches the edge's constraint (the
best-effort cause attribution). -/
def removedMatch (M : String → Rec → Bool) (st : PR) (s : String) (i : Nat) : Bool :=
  removedAt st i && M s (recAt st i)

/-- `evaluate`: cache hit returns no proposal; otherwise search the (possibly
tail-only) provider range for the first live matching id; on failure propose
removal with the cause index. -/
def evaluate (M : String → Rec → Bool) (st : PR) (name spec : String) (e : Edge) :
    Option Evaluation :=
  let c := candidatesOf st name
  let cacheHit := match e.lastSuccessfulResolution with
    | some off => !removedAt st (c.1 + off)
    | none => false
  if cacheHit then none
  else
    match (searchRange c.1 c.2 e.lastSuccessfulResolution).find? (aliveMatch M st spec) with
    | some i => some (.updateSolution name spec (i - c.1))
    | none =>
      let cause := match e.lastSuccessfulResolution with
        | some off => some (c.1 + off)
        | none => (searchRange c.1 c.2 none).find? (removedMatch M st spec)
      some (.removeAndLog name spec cause)

/-- Look up an edge by its `(dependency_name, spec)` key. -/
def lookupEdge (st : PR) (n s : String) : Edge :=
  ((st.edges.find? (fun x => x.1 == n && x.2.1 == s)).map (·.2.2)).getD default

/-- Whether an edge with this key exists. -/
def containsEdge (st : PR) (n s : String) : Bool :=
  st.edges.any (fun x => x.1 == n && x.2.1 == s)

/-- Update the edge with the given key in place (`get_mut`). -/
def updateEdge : List (String × String × Edge) → String → String → (Edge → Edge) →
    List (String × String × Edge)
  | [], _, _, _ => []
  | (n', s', e) :: rest, n, s, f =>
    if n' = n ∧ s' = s then (n', s', f e) :: rest
    else (n', s', e) :: updateEdge rest n s f

/-- Record a new `last_successful_resolution` for an edge. -/
def setLast (st : PR) (n s : String) (off : Nat) : PR :=
  { st with edges :=
      updateEdge st.edges n s (fun e => { e with lastSuccessfulResolution := some off }) }

/-- Latch an edge's `unsatisfiable` flag. -/
def setUnsat (st : PR) (n s : String) : PR :=
  { st with edges := updateEdge st.edges n s (fun e => { e with unsatisfiable := true }) }

/-- Build the `RemovedUnsatisfiableLog` for depender `i` of an unsatisfiable
edge; `cause_filename` is the filename at the cause index when present. -/
def mkUnsatLog (st : PR) (n s : String) (cause : Option Nat) (i : Nat) : UnsatLog :=
  { filename := filenameAt st i, packageName := (recAt st i).name,
    dependencyPackageName := n, matchspec := s,
    causeFilename := cause.map (filenameAt st) }

/-- The state after applying one `RemoveAndLog` proposal: the edge is latched
unsatisfiable and every one of its dependers' removal bits is set. -/
def removeApplied (st : PR) (n s : String) : PR :=
  let st1 := setUnsat st n s
  { st1 with
    removed := (lookupEdge st1 n s).dependers.foldl (fun r i => r.set i true) st1.removed }

/-- The sequential apply phase of `find_unresolveables`: record new
resolutions; for each unsatisfiable proposal latch the edge, remove every
depender and emit one log per depender. -/
def applyEvals : List Evaluation → PR → List UnsatLog × PR
  | [], st => ([], st)
  | Evaluation.updateSolution n s off :: rest, st => applyEvals rest (setLast st n s off)
  | Evaluation.removeAndLog n s cause :: rest, st =>
    let st1 := setUnsat st n s
    let logs := (lookupEdge st1 n s).dependers.map (mkUnsatLog st1 n s cause)
    let r := applyEvals rest (removeApplied st n s)
    (logs ++ r.1, r.2)

/-- The edges considered by an invocation: for each candidate dependency name,
every edge keyed under it. -/
def edgesFor (st : PR) (dependingOns : List String) : List (String × String × Edge) :=
  dependingOns.flatMap (fun dn => st.edges.filter (fun x => x.1 == dn))

/-- The parallel evaluate phase: skip edges already unsatisfiable, evaluate
the rest against the shared pre-state. -/
def evalsOf (M : String → Rec → Bool) (st : PR) (dependingOns : List String) :
    List Evaluation :=
  (edgesFor st dependingOns).filterMap (fun x =>
    if x.2.2.unsatisfiable then none else evaluate M st x.1 x.2.1 x.2.2)

/-- `find_unresolveables`: evaluate all candidate edges against the pre-state,
then apply the batch sequentially. -/
def findUnresolveables (M : String → Rec → Bool) (st : PR) (dependingOns : List String) :
    List UnsatLog × PR :=
  applyEvals (evalsOf M st dependingOns) st

/-- The keys of the edge table; the Rust nested `HashMap` cannot hold two
edges with one key, which the `keysNodup` hypothesis captures. -/
def edgeKeys (st : PR) : List (String × String) := st.edges.map (fun x => (x.1, x.2.1))

/-- Key uniqueness of the edge table. -/
def keysNodup (st : PR) : Prop := (edgeKeys st).Nodup

/-! ## The driver's noarch combination (main.rs) -/

/-- The `common_filtered_fns` computation of `main`: the per-arch removal sets
are combined with `reduce(|mut left, right| { left.extend(right); left })`,
i.e. folded with set union; membership over lists models the `HashSet`.
`first` is the first architecture's removal set, `rest` the others'. -/
def commonFilteredFns (first : List String) (rest : List (List String)) : List String :=
  rest.foldl (fun acc s => acc ++ s) first

/-- Whether a noarch package record survives into the final noarch output
file: `main` writes it iff `!common_filtered_fns.contains(pkfn)`. -/
def noarchKept (noarchFns first : List String) (rest : List (List String)) (f : String) :
    Bool :=
  noarchFns.contains f && !(commonFilteredFns first rest).contains f

/-- Modelled from the spec: a filename is removed by every per-arch run, i.e.
lies in the intersection of the per-arch removal sets — the set the spec says
should be the one excluded from the noarch output. -/
def removedByEveryArch (first : List String) (rest : List (List String)) (f : String) :
    Bool :=
  first.contains f && rest.all (fun s => s.contains f)

/-- Modelled from the spec: the noarch output the spec prescribes — keep a
noarch package iff at least one per-arch run did not remove it. -/
def specNoarchKept (noarchFns first : List String) (rest : List (List String)) (f : String) :
    Bool :=
  noarchFns.contains f && !removedByEveryArch first rest f

/-- The key test used by `lookupEdge`, `containsEdge` and `updateEdge`. -/
def edgePred (n s : String) : String × String × Edge → Bool :=
  fun x => x.1 == n && x.2.1 == s

/-- List-level edge lookup. -/
def lookupE (es : List (String × String × Edge)) (n s : String) : Edge :=
  ((es.find? (edgePred n s)).map (fun x => x.2.2)).getD default

/-- Removal is monotone under `removedLe`-style transport. -/
def removedLe (st st2 : PR) : Prop := ∀ i, removedAt st i = true → removedAt st2 i = true

/-- Latched unsatisfiable flags survive under `unsatLe`-style transport. -/
def unsatLe (st st2 : PR) : Prop :=
  ∀ n s, (lookupEdge st n s).unsatisfiable = true →
    (lookupEdge st2 n s).unsatisfiable = true

/-- Dependency-edge completeness: every clause of every record has an edge
holding the record's id as a depender. -/
def depEdgeComplete (st : PR) : Prop :=
  ∀ i, i < st.packageMetadatas.length → ∀ d ∈ (recAt st i).depends,
    ∃ e, ((dependsToNameSpec d).1, (dependsToNameSpec d).2, e) ∈ st.edges ∧ i ∈ e.dependers

/-- All depender ids lie below the package count. -/
def dependersBounded (st : PR) : Prop :=
  ∀ x ∈ st.edges, ∀ i ∈ x.2.2.dependers, i < st.packageMetadatas.length

/-- Provider records used by witness states. -/
def recProv : Rec :=
  { name := "p", version := "1", build := "0", buildNumber := 0,
    features := none, trackFeatures := [], depends := [] }

/-- Witness state for the search claims: two providers of name `p`, the first
already removed. -/
def stSearch : PR :=
  { removed := [true, false],
    packageMetadatas := [{ filename := "p-1", record := recProv },
                         { filename := "p-2", record := recProv }],
    edges := [], nameRanges := [("p", 0, 2)] }

/-- Witness state with a single removed provider of name `p`. -/
def stGone : PR :=
  { removed := [true],
    packageMetadatas := [{ filename := "p-1", record := recProv }],
    edges := [], nameRanges := [("p", 0, 1)] }

/-- An edge with a recorded resolution at offset 0, used by the C6 witness. -/
def edgeCached : Edge :=
  { unsatisfiable := false, lastSuccessfulResolution := some 0, dependers := [0] }

/-- An edge with no recorded resolution, used by the C7 and C8 witnesses. -/
def edgeFresh : Edge :=
  { unsatisfiable := false, lastSuccessfulResolution := none, dependers := [0] }

/-- Witness state for C8: one removed matching provider and the edge present
in the table with one depender. -/
def stGoneE : PR :=
  { removed := [true],
    packageMetadatas := [{ filename := "p-1", record := recProv }],
    edges := [("p", "", edgeFresh)], nameRanges := [("p", 0, 1)] }

/-- A record depending on the virtual package `__win`. -/
def recFoo : Rec :=
  { name := "foo", version := "1", build := "0", buildNumber := 0,
    features := none, trackFeatures := [], depends := ["__win"] }

/-- One-record input list for the C9 witness. -/
def rsArch : List (String × Rec) := [("foo-1", recFoo)]

/-! ## Concrete instances used by counterexamples and witnesses -/

/-- A matcher in which the empty constraint string matches every record; the
spec fixes this reading ("the empty string ... denotes any version"). -/
def matchAnyOnEmpty : String → Rec → Bool := fun s _ => s == ""

/-- Build `lib-1.0` with hashed build string `h0123456_10`, build number 10. -/
def recBuild10 : Rec :=
  { name := "lib", version := "1.0", build := "h0123456_10", buildNumber := 10,
    features := none, trackFeatures := [], depends := [] }

/-- Build `lib-1.0` with hashed build string `h0123456_9`, build number 9. -/
def recBuild9 : Rec :=
  { name := "lib", version := "1.0", build := "h0123456_9", buildNumber := 9,
    features := none, trackFeatures := [], depends := [] }

/-- Two-record graph for the build-prune counterexample; the `(name, version,
filename)` sort places build number 10 before build number 9 because the
filenames compare `_10` < `_9` lexicographically. -/
def stBuild : PR :=
  buildRelations
    [("lib-1.0-h0123456_10.tar.bz2", recBuild10), ("lib-1.0-h0123456_9.tar.bz2", recBuild9)]

/-- Record of name `N` depending on `R` with no constraint. -/
def recCycleN : Rec :=
  { name := "N", version := "1", build := "0", buildNumber := 0,
    features := none, trackFeatures := [], depends := ["R"] }

/-- Record of name `R` depending on `N` with no constraint. -/
def recCycleR : Rec :=
  { name := "R", version := "1", build := "0", buildNumber := 0,
    features := none, trackFeatures := [], depends := ["N"] }

/-- Two-record cyclic graph: `R` and `N` each name the other as their only
dependency. -/
def stCycle : PR := buildRelations [("N-1", recCycleN), ("R-1", recCycleR)]

/-- Record `a-1` depending on `b`. -/
def recChainA : Rec :=
  { name := "a", version := "1", build := "0", buildNumber := 0,
    features := none, trackFeatures := [], depends := ["b"] }

/-- Record `b-1` depending on the provider-less name `c`. -/
def recChainB : Rec :=
  { name := "b", version := "1", build := "0", buildNumber := 0,
    features := none, trackFeatures := [], depends := ["c"] }

/-- Two-record chain graph `a → b → c` with no provider for `c`. -/
def stChain : PR := buildRelations [("a-1", recChainA), ("b-1", recChainB)]

/-! ## C1 -/

/-- C1: the claim says a noarch package is excluded from the final noarch
output iff every per-arch run removed it (intersection).  The code combines
the per-arch removal sets with `HashSet::extend` under `reduce`, i.e. takes
their union: with per-arch removal sets \x7b x \x7d and ∅, the noarch package
`x` is excluded from the output although the second arch kept it, while the
spec-modelled output keeps it.  This refutes the claim on the code and
witnesses the divergence from the spec's prescribed intersection. -/
theorem c1_union_not_intersection :
    noarchKept ["x"] ["x"] [[]] "x" = false ∧
    specNoarchKept ["x"] ["x"] [[]] "x" = true ∧
    removedByEveryArch ["x"] [[]] "x" = false ∧
    (commonFilteredFns ["x"] [[]]).contains "x" = true := by
  decide

/-! ## C2 -/

/-- C2: the claim says that within a `(name, version, stripped_build)` group
of ≥ 2 hash-pattern records, exactly the members with build number below the
group maximum are removed.  The code instead compares against the build
number of the *last* group member; on the group (build number 10, build
number 9) — in this filename sort order — it removes nothing, leaving a
survivor (9) strictly below the group maximum (10).  The conjuncts check the
two records do form a size-2 group of pattern-matching builds. -/
theorem c2_last_not_max :
    applyBuildPrune stBuild = ([], stBuild) ∧
    hashPattern recBuild10.build = true ∧
    hashPattern recBuild9.build = true ∧
    buildKey recBuild10 = buildKey recBuild9 ∧
    recBuild10.buildNumber = 10 ∧ recBuild9.buildNumber = 9 ∧
    stBuild.packageMetadatas =
      [{ filename := "lib-1.0-h0123456_10.tar.bz2", record := recBuild10 },
       { filename := "lib-1.0-h0123456_9.tar.bz2", record := recBuild9 }] := by
  decide

/-! ## C3 -/

/-- Unfolding of one `apply_must_compatible` call on the cyclic graph rooted
at `R`: nothing is removed (every spec is empty and matches), and the call
ends by recursing on the single common dependency name `N`. -/
theorem mustCompatibleCycleStepR (n : Nat) :
    applyMustCompatible matchAnyOnEmpty (n + 1) stCycle "R" =
      mcFold (applyMustCompatible matchAnyOnEmpty n) ["N"] [] stCycle := rfl

/-- Unfolding of one `apply_must_compatible` call on the cyclic graph rooted
at `N`: symmetric to the `R` case, recursing on `R`. -/
theorem mustCompatibleCycleStepN (n : Nat) :
    applyMustCompatible matchAnyOnEmpty (n + 1) stCycle "N" =
      mcFold (applyMustCompatible matchAnyOnEmpty n) ["R"] [] stCycle := rfl

/-- On the cyclic two-record graph, no fuel bound suffices for either root. -/
theorem mustCompatibleCycleAux : ∀ fuel,
    applyMustCompatible matchAnyOnEmpty fuel stCycle "R" = none ∧
    applyMustCompatible matchAnyOnEmpty fuel stCycle "N" = none := by
  intro fuel
  induction fuel with
  | zero => exact ⟨rfl, rfl⟩
  | succ n ih =>
    refine ⟨?_, ?_⟩
    · rw [mustCompatibleCycleStepR, mcFold, ih.2]
    · rw [mustCompatibleCycleStepN, mcFold, ih.1]

/-- C3: the claim says `apply_must_compatible(R)` terminates on every finite
graph, in particular on cyclic dependency-name relations.  On the two-record
graph in which a surviving variant of `R` has common dependency name `N` and
the surviving variant of `N` has common dependency name `R`, the source
recurses `R → N → R → …` without ever removing a package: the fuel-indexed
embedding returns `none` for every fuel bound, i.e. the recursion exceeds
every finite depth. -/
theorem c3_cycle_no_fuel_suffices :
    ∀ fuel, applyMustCompatible matchAnyOnEmpty fuel stCycle "R" = none :=
  fun fuel => (mustCompatibleCycleAux fuel).1

/-! ## C10 -/

/-- C10: for a package name with no entry in the name-range map,
`apply_matchspecs` with any constraint list returns an empty log and leaves
the engine state entirely unchanged, and consequently a user-constraints
entry for an unknown name is silently ignored by `apply_user_matchspecs`. -/
theorem c10_unknown_name_frame (M : String → Rec → Bool) (st : PR) (name : String)
    (specs : List String) (h : lookupRange st name = none) :
    applyMatchspecs M st name specs = ([], st) ∧
    applyUserMatchspecs M st [(name, specs)] = ([], st) := by
  have h1 : applyMatchspecs M st name specs = ([], st) := by
    unfold applyMatchspecs
    rw [h]
  refine ⟨h1, ?_⟩
  unfold applyUserMatchspecs
  simp [umStep, h1]

/-- Witness for C10 at a concrete graph and the unknown name `zzz`. -/
theorem c10_witness :
    lookupRange stChain "zzz" = none ∧
    applyMatchspecs matchAnyOnEmpty stChain "zzz" ["1.0"] = ([], stChain) ∧
    applyUserMatchspecs matchAnyOnEmpty stChain [("zzz", ["1.0"])] = ([], stChain) := by
  have h : lookupRange stChain "zzz" = none := by decide
  have r := c10_unknown_name_frame matchAnyOnEmpty stChain "zzz" ["1.0"] h
  exact ⟨h, r.1, r.2⟩

/-! ## Lemmas about the edge table -/

/-- Characterisation of `find?` after `updateEdge`: the first entry with the
looked-up key is transformed exactly when its key is the updated one. -/
theorem find?_updateEdge (n' s' : String) (f : Edge → Edge) (n s : String) :
    ∀ es : List (String × String × Edge),
      (updateEdge es n' s' f).find? (edgePred n s) =
        (es.find? (edgePred n s)).map
          (fun x => if x.1 = n' ∧ x.2.1 = s' then (x.1, x.2.1, f x.2.2) else x) := by
  intro es
  induction es with
  | nil => rfl
  | cons a rest ih =>
    obtain ⟨an, as_, ae⟩ := a
    by_cases hk : an = n' ∧ as_ = s'
    · rw [show updateEdge ((an, as_, ae) :: rest) n' s' f = (an, as_, f ae) :: rest from by
        simp [updateEdge, hk]]
      by_cases hp : edgePred n s (an, as_, ae) = true
      · have hp2 : edgePred n s (an, as_, f ae) = true := hp
        rw [List.find?_cons_of_pos _ hp2, List.find?_cons_of_pos _ hp]
        simp [hk]
      · have hp2 : ¬ edgePred n s (an, as_, f ae) = true := hp
        rw [List.find?_cons_of_neg _ hp2, List.find?_cons_of_neg _ hp]
        cases hfr : rest.find? (edgePred n s) with
        | none => rfl
        | some x =>
          have hx := List.find?_some hfr
          have hxn : x.1 = n ∧ x.2.1 = s := by
            unfold edgePred at hx
            simp only [Bool.and_eq_true, beq_iff_eq] at hx
            exact hx
          have hcond : ¬ (x.1 = n' ∧ x.2.1 = s') := by
            intro hc
            apply hp
            unfold edgePred
            simp only [Bool.and_eq_true, beq_iff_eq]
            constructor
            · rw [hk.1, ← hc.1]
              exact hxn.1
            · rw [hk.2, ← hc.2]
              exact hxn.2
          simp [hcond]
    · rw [show updateEdge ((an, as_, ae) :: rest) n' s' f =
          (an, as_, ae) :: updateEdge rest n' s' f from by simp [updateEdge, hk]]
      by_cases hp : edgePred n s (an, as_, ae) = true
      · rw [List.find?_cons_of_pos _ hp, List.find?_cons_of_pos _ hp]
        simp [hk]
      · rw [List.find?_cons_of_neg _ hp, List.find?_cons_of_neg _ hp]
        exact ih

/-- `lookupEdge` through the key test. -/
theorem lookupEdge_eq_find? (st : PR) (n s : String) :
    lookupEdge st n s = ((st.edges.find? (edgePred n s)).map (fun x => x.2.2)).getD default := rfl

/-- Keys of a found entry satisfy the key test propositionally. -/
theorem keys_of_find? {es : List (String × String × Edge)} {n s : String}
    {x : String × String × Edge} (h : es.find? (edgePred n s) = some x) :
    x.1 = n ∧ x.2.1 = s := by
  have hx := List.find?_some h
  unfold edgePred at hx
  simp only [Bool.and_eq_true, beq_iff_eq] at hx
  exact hx

/-- Updating a different key leaves the lookup image unchanged. -/
theorem lookupAfterUpdate_ne (es : List (String × String × Edge)) (n' s' : String)
    (f : Edge → Edge) (n s : String) (h : ¬ (n' = n ∧ s' = s)) :
    ((updateEdge es n' s' f).find? (edgePred n s)).map (fun x => x.2.2) =
      (es.find? (edgePred n s)).map (fun x => x.2.2) := by
  rw [find?_updateEdge]
  cases hf : es.find? (edgePred n s) with
  | none => rfl
  | some x =>
    have hxn := keys_of_find? hf
    have hc : ¬ (x.1 = n' ∧ x.2.1 = s') := by
      rw [hxn.1, hxn.2]
      intro hc
      exact h ⟨hc.1.symm, hc.2.symm⟩
    simp [hc]

/-- Updating the looked-up key transforms the found edge. -/
theorem lookupAfterUpdate_self (es : List (String × String × Edge)) (n s : String)
    (f : Edge → Edge) :
    ((updateEdge es n s f).find? (edgePred n s)).map (fun x => x.2.2) =
      (es.find? (edgePred n s)).map (fun x => f x.2.2) := by
  rw [find?_updateEdge]
  cases hf : es.find? (edgePred n s) with
  | none => rfl
  | some x =>
    have hxn := keys_of_find? hf
    simp [hxn.1, hxn.2]

/-- Unfold the edge list of `setLast`. -/
theorem setLast_edges (st : PR) (n s : String) (off : Nat) :
    (setLast st n s off).edges =
      updateEdge st.edges n s (fun e => { e with lastSuccessfulResolution := some off }) := rfl

/-- Unfold the edge list of `setUnsat`. -/
theorem setUnsat_edges (st : PR) (n s : String) :
    (setUnsat st n s).edges =
      updateEdge st.edges n s (fun e => { e with unsatisfiable := true }) := rfl

/-- `setLast` on another key does not change a lookup. -/
theorem lookupEdge_setLast_ne (st : PR) (n' s' : String) (off : Nat) (n s : String)
    (h : ¬ (n' = n ∧ s' = s)) :
    lookupEdge (setLast st n' s' off) n s = lookupEdge st n s := by
  rw [lookupEdge_eq_find?, lookupEdge_eq_find?, setLast_edges,
    lookupAfterUpdate_ne st.edges n' s' _ n s h]

/-- `setUnsat` on another key does not change a lookup. -/
theorem lookupEdge_setUnsat_ne (st : PR) (n' s' : String) (n s : String)
    (h : ¬ (n' = n ∧ s' = s)) :
    lookupEdge (setUnsat st n' s') n s = lookupEdge st n s := by
  rw [lookupEdge_eq_find?, lookupEdge_eq_find?, setUnsat_edges,
    lookupAfterUpdate_ne st.edges n' s' _ n s h]

/-- `setLast` either leaves the looked-up edge alone (key absent) or sets its
resolution field. -/
theorem lookupEdge_setLast_cases (st : PR) (n s : String) (off : Nat) :
    lookupEdge (setLast st n s off) n s = lookupEdge st n s ∨
      lookupEdge (setLast st n s off) n s =
        { lookupEdge st n s with lastSuccessfulResolution := some off } := by
  rw [lookupEdge_eq_find?, lookupEdge_eq_find?, setLast_edges, lookupAfterUpdate_self]
  cases hf : st.edges.find? (edgePred n s) with
  | none => left; rfl
  | some x => right; rfl

/-- With the key present, `setLast` sets exactly the resolution field. -/
theorem lookupEdge_setLast_self (st : PR) (n s : String) (off : Nat)
    (h : containsEdge st n s = true) :
    lookupEdge (setLast st n s off) n s =
      { lookupEdge st n s with lastSuccessfulResolution := some off } := by
  rw [lookupEdge_eq_find?, lookupEdge_eq_find?, setLast_edges, lookupAfterUpdate_self]
  cases hf : st.edges.find? (edgePred n s) with
  | none =>
    exfalso
    have hany : st.edges.any (edgePred n s) = true := h
    obtain ⟨x, hx, hpx⟩ := List.any_eq_true.mp hany
    exact (List.find?_eq_none.mp hf x hx) hpx
  | some x => rfl

/-- With the key present, `setUnsat` latches exactly the flag. -/
theorem lookupEdge_setUnsat_self (st : PR) (n s : String)
    (h : containsEdge st n s = true) :
    lookupEdge (setUnsat st n s) n s = { lookupEdge st n s with unsatisfiable := true } := by
  rw [lookupEdge_eq_find?, lookupEdge_eq_find?, setUnsat_edges, lookupAfterUpdate_self]
  cases hf : st.edges.find? (edgePred n s) with
  | none =>
    exfalso
    have hany : st.edges.any (edgePred n s) = true := h
    obtain ⟨x, hx, hpx⟩ := List.any_eq_true.mp hany
    exact (List.find?_eq_none.mp hf x hx) hpx
  | some x => rfl

/-- `setLast` never changes any edge's `unsatisfiable` flag. -/
theorem unsat_lookupEdge_setLast (st : PR) (n' s' : String) (off : Nat) (n s : String) :
    (lookupEdge (setLast st n' s' off) n s).unsatisfiable =
      (lookupEdge st n s).unsatisfiable := by
  by_cases h : n' = n ∧ s' = s
  · obtain ⟨rfl, rfl⟩ := h
    cases lookupEdge_setLast_cases st n' s' off with
    | inl he => rw [he]
    | inr he => rw [he]
  · rw [lookupEdge_setLast_ne st n' s' off n s h]

/-- `setUnsat` never lowers any edge's `unsatisfiable` flag. -/
theorem unsat_lookupEdge_setUnsat (st : PR) (n' s' : String) (n s : String)
    (h : (lookupEdge st n s).unsatisfiable = true) :
    (lookupEdge (setUnsat st n' s') n s).unsatisfiable = true := by
  by_cases hk : n' = n ∧ s' = s
  · obtain ⟨rfl, rfl⟩ := hk
    rw [lookupEdge_eq_find?, setUnsat_edges, lookupAfterUpdate_self]
    cases hf : st.edges.find? (edgePred n' s') with
    | none =>
      rw [lookupEdge_eq_find?, hf] at h
      exact h
    | some x => rfl
  · rw [lookupEdge_setUnsat_ne st n' s' n s hk]
    exact h

/-- Changing the removal bitmap leaves every edge lookup unchanged. -/
theorem lookupEdge_removedChange (st : PR) (r : List Bool) (n s : String) :
    lookupEdge { st with removed := r } n s = lookupEdge st n s := rfl

/-- Unfolding `applyEvals` on an `updateSolution` proposal. -/
theorem applyEvals_cons_update (n s : String) (off : Nat) (rest : List Evaluation) (st : PR) :
    applyEvals (Evaluation.updateSolution n s off :: rest) st =
      applyEvals rest (setLast st n s off) := rfl

/-- Unfolding `applyEvals` on a `removeAndLog` proposal. -/
theorem applyEvals_cons_remove (n s : String) (cause : Option Nat) (rest : List Evaluation)
    (st : PR) :
    applyEvals (Evaluation.removeAndLog n s cause :: rest) st =
      ((lookupEdge (setUnsat st n s) n s).dependers.map (mkUnsatLog (setUnsat st n s) n s cause)
          ++ (applyEvals rest (removeApplied st n s)).1,
        (applyEvals rest (removeApplied st n s)).2) := rfl

/-- `updateEdge` preserves the key list. -/
theorem updateEdge_keys (n' s' : String) (f : Edge → Edge) :
    ∀ es : List (String × String × Edge),
      (updateEdge es n' s' f).map (fun x => (x.1, x.2.1)) = es.map (fun x => (x.1, x.2.1)) := by
  intro es
  induction es with
  | nil => rfl
  | cons a rest ih =>
    obtain ⟨an, as_, ae⟩ := a
    by_cases hk : an = n' ∧ as_ = s'
    · simp [updateEdge, hk]
    · simp only [updateEdge, if_neg hk, List.map_cons, ih]

/-- `setLast` preserves the edge keys. -/
theorem edgeKeys_setLast (st : PR) (n s : String) (off : Nat) :
    edgeKeys (setLast st n s off) = edgeKeys st := by
  unfold edgeKeys
  rw [setLast_edges, updateEdge_keys]

/-- `setUnsat` preserves the edge keys. -/
theorem edgeKeys_setUnsat (st : PR) (n s : String) :
    edgeKeys (setUnsat st n s) = edgeKeys st := by
  unfold edgeKeys
  rw [setUnsat_edges, updateEdge_keys]

/-- `removeApplied` preserves the edge keys. -/
theorem edgeKeys_removeApplied (st : PR) (n s : String) :
    edgeKeys (removeApplied st n s) = edgeKeys st := edgeKeys_setUnsat st n s

/-- Edge lookups see through `removeApplied` to the latched state. -/
theorem lookupEdge_removeApplied (st : PR) (n s n2 s2 : String) :
    lookupEdge (removeApplied st n s) n2 s2 = lookupEdge (setUnsat st n s) n2 s2 := rfl

/-- `containsEdge` only reads the keys. -/
theorem containsEdge_eq_keys (st : PR) (n s : String) :
    containsEdge st n s = (edgeKeys st).any (fun k => k.1 == n && k.2 == s) := by
  unfold containsEdge edgeKeys
  generalize st.edges = es
  induction es with
  | nil => rfl
  | cons a rest ih => simp only [List.any_cons, List.map_cons, ih]

/-- States with equal edge keys agree on `containsEdge`. -/
theorem containsEdge_congr {st st2 : PR} (h : edgeKeys st2 = edgeKeys st) (n s : String) :
    containsEdge st2 n s = containsEdge st n s := by
  rw [containsEdge_eq_keys, containsEdge_eq_keys, h]

/-- The apply phase never touches the package table. -/
theorem applyEvals_metadatas : ∀ (evs : List Evaluation) (st : PR),
    ((applyEvals evs st).2).packageMetadatas = st.packageMetadatas := by
  intro evs
  induction evs with
  | nil => intro st; rfl
  | cons ev rest ih =>
    intro st
    cases ev with
    | updateSolution n s off => exact ih (setLast st n s off)
    | removeAndLog n s cause => exact ih (removeApplied st n s)

/-- The apply phase never touches the name ranges. -/
theorem applyEvals_ranges : ∀ (evs : List Evaluation) (st : PR),
    ((applyEvals evs st).2).nameRanges = st.nameRanges := by
  intro evs
  induction evs with
  | nil => intro st; rfl
  | cons ev rest ih =>
    intro st
    cases ev with
    | updateSolution n s off => exact ih (setLast st n s off)
    | removeAndLog n s cause => exact ih (removeApplied st n s)

/-- The apply phase preserves the edge keys. -/
theorem applyEvals_edgeKeys : ∀ (evs : List Evaluation) (st : PR),
    edgeKeys ((applyEvals evs st).2) = edgeKeys st := by
  intro evs
  induction evs with
  | nil => intro st; rfl
  | cons ev rest ih =>
    intro st
    cases ev with
    | updateSolution n s off => exact (ih (setLast st n s off)).trans (edgeKeys_setLast st n s off)
    | removeAndLog n s cause =>
      exact (ih (removeApplied st n s)).trans (edgeKeys_removeApplied st n s)

/-- Setting one bit true preserves every true bit. -/
theorem getD_set_true : ∀ (l : List Bool) (j i : Nat), l.getD i false = true →
    (l.set j true).getD i false = true := by
  intro l
  induction l with
  | nil =>
    intro j i h
    simp [List.getD] at h
  | cons a t ih =>
    intro j i h
    cases j with
    | zero =>
      cases i with
      | zero => rfl
      | succ i2 => simpa using h
    | succ j2 =>
      cases i with
      | zero => simpa using h
      | succ i2 =>
        have := ih j2 i2 (by simpa using h)
        simpa using this

/-- A fold of bit-sets preserves every true bit. -/
theorem foldl_set_true_mono : ∀ (deps : List Nat) (l : List Bool) (i : Nat),
    l.getD i false = true → (deps.foldl (fun r j => r.set j true) l).getD i false = true := by
  intro deps
  induction deps with
  | nil => intro l i h; exact h
  | cons d rest ih => intro l i h; exact ih _ i (getD_set_true l d i h)

/-- `removeApplied` preserves every removal bit. -/
theorem removedAt_removeApplied (st : PR) (n s : String) (i : Nat)
    (h : removedAt st i = true) : removedAt (removeApplied st n s) i = true :=
  foldl_set_true_mono _ _ i h

/-- The apply phase preserves every removal bit: removal is monotone across
`find_unresolveables`. -/
theorem applyEvals_removed_mono : ∀ (evs : List Evaluation) (st : PR) (i : Nat),
    removedAt st i = true → removedAt (applyEvals evs st).2 i = true := by
  intro evs
  induction evs with
  | nil => intro st i h; exact h
  | cons ev rest ih =>
    intro st i h
    cases ev with
    | updateSolution n s off => exact ih (setLast st n s off) i h
    | removeAndLog n s cause =>
      exact ih (removeApplied st n s) i (removedAt_removeApplied st n s i h)

/-- The apply phase preserves every latched `unsatisfiable` flag. -/
theorem applyEvals_unsat_mono : ∀ (evs : List Evaluation) (st : PR) (n s : String),
    (lookupEdge st n s).unsatisfiable = true →
    (lookupEdge (applyEvals evs st).2 n s).unsatisfiable = true := by
  intro evs
  induction evs with
  | nil => intro st n s h; exact h
  | cons ev rest ih =>
    intro st n s h
    cases ev with
    | updateSolution n2 s2 off =>
      exact ih (setLast st n2 s2 off) n s (by rw [unsat_lookupEdge_setLast]; exact h)
    | removeAndLog n2 s2 cause =>
      refine ih (removeApplied st n2 s2) n s ?_
      rw [lookupEdge_removeApplied]
      exact unsat_lookupEdge_setUnsat st n2 s2 n s h

/-- An invocation that produces no logs removes no packages: the bitmap of
the output state equals the input bitmap. -/
theorem applyEvals_removed_of_nil : ∀ (evs : List Evaluation) (st : PR),
    (applyEvals evs st).1 = [] → (applyEvals evs st).2.removed = st.removed := by
  intro evs
  induction evs with
  | nil => intro st _; rfl
  | cons ev rest ih =>
    intro st h
    cases ev with
    | updateSolution n s off => exact ih (setLast st n s off) h
    | removeAndLog n s cause =>
      rw [applyEvals_cons_remove] at h ⊢
      have h2 := List.append_eq_nil.mp h
      have hdeps : (lookupEdge (setUnsat st n s) n s).dependers = [] :=
        List.map_eq_nil_iff.mp h2.1
      have hrem : (removeApplied st n s).removed = st.removed := by
        show (lookupEdge (setUnsat st n s) n s).dependers.foldl (fun r i => r.set i true)
            (setUnsat st n s).removed = st.removed
        rw [hdeps]
        rfl
      rw [ih (removeApplied st n s) h2.2, hrem]

/-- If no proposal carries an edge's key, the apply phase leaves that edge
unchanged. -/
theorem applyEvals_lookup_of_no_key : ∀ (evs : List Evaluation) (st : PR) (n s : String),
    (∀ ev ∈ evs, evKey ev ≠ (n, s)) →
    lookupEdge (applyEvals evs st).2 n s = lookupEdge st n s := by
  intro evs
  induction evs with
  | nil => intro st n s _; rfl
  | cons ev rest ih =>
    intro st n s h
    have hev : evKey ev ≠ (n, s) := h ev (List.mem_cons_self ev rest)
    have hrest : ∀ ev2 ∈ rest, evKey ev2 ≠ (n, s) :=
      fun ev2 hm => h ev2 (List.mem_cons_of_mem ev hm)
    cases ev with
    | updateSolution n2 s2 off =>
      have hne : ¬ (n2 = n ∧ s2 = s) := by
        intro hc
        exact hev (by rw [evKey, hc.1, hc.2])
      rw [applyEvals_cons_update, ih (setLast st n2 s2 off) n s hrest,
        lookupEdge_setLast_ne st n2 s2 off n s hne]
    | removeAndLog n2 s2 cause =>
      have hne : ¬ (n2 = n ∧ s2 = s) := by
        intro hc
        exact hev (by rw [evKey, hc.1, hc.2])
      rw [applyEvals_cons_remove]
      show lookupEdge (applyEvals rest (removeApplied st n2 s2)).2 n s = _
      rw [ih (removeApplied st n2 s2) n s hrest, lookupEdge_removeApplied,
        lookupEdge_setUnsat_ne st n2 s2 n s hne]

/-- If every proposal with an edge's key is one fixed `updateSolution`, the
apply phase either leaves the edge alone or sets that resolution. -/
theorem applyEvals_lookup_update_weak : ∀ (evs : List Evaluation) (st : PR) (n s : String)
    (off : Nat),
    (∀ ev ∈ evs, evKey ev = (n, s) → ev = Evaluation.updateSolution n s off) →
    lookupEdge (applyEvals evs st).2 n s = lookupEdge st n s ∨
    lookupEdge (applyEvals evs st).2 n s =
      { lookupEdge st n s with lastSuccessfulResolution := some off } := by
  intro evs
  induction evs with
  | nil => intro st n s off _; left; rfl
  | cons ev rest ih =>
    intro st n s off h
    have hrest : ∀ ev2 ∈ rest, evKey ev2 = (n, s) → ev2 = Evaluation.updateSolution n s off :=
      fun ev2 hm => h ev2 (List.mem_cons_of_mem ev hm)
    by_cases hkey : evKey ev = (n, s)
    · have hev := h ev (List.mem_cons_self ev rest) hkey
      subst hev
      rw [applyEvals_cons_update]
      rcases ih (setLast st n s off) n s off hrest with h1 | h1 <;>
        rcases lookupEdge_setLast_cases st n s off with h2 | h2
      · left; rw [h1, h2]
      · right; rw [h1, h2]
      · right; rw [h1, h2]
      · right; rw [h1, h2]
    · cases ev with
      | updateSolution n2 s2 o2 =>
        have hne : ¬ (n2 = n ∧ s2 = s) := by
          intro hc
          exact hkey (by rw [evKey, hc.1, hc.2])
        rw [applyEvals_cons_update]
        rcases ih (setLast st n2 s2 o2) n s off hrest with h1 | h1
        · left; rw [h1, lookupEdge_setLast_ne st n2 s2 o2 n s hne]
        · right; rw [h1, lookupEdge_setLast_ne st n2 s2 o2 n s hne]
      | removeAndLog n2 s2 c2 =>
        have hne : ¬ (n2 = n ∧ s2 = s) := by
          intro hc
          exact hkey (by rw [evKey, hc.1, hc.2])
        rw [applyEvals_cons_remove]
        show lookupEdge (applyEvals rest (removeApplied st n2 s2)).2 n s = _ ∨
          lookupEdge (applyEvals rest (removeApplied st n2 s2)).2 n s = _
        rcases ih (removeApplied st n2 s2) n s off hrest with h1 | h1
        · left
          rw [h1, lookupEdge_removeApplied, lookupEdge_setUnsat_ne st n2 s2 n s hne]
        · right
          rw [h1, lookupEdge_removeApplied, lookupEdge_setUnsat_ne st n2 s2 n s hne]

/-- If one `updateSolution` proposal for an existing edge is among the batch
and every proposal with that key equals it, the apply phase sets exactly that
resolution. -/
theorem applyEvals_lookup_update_strong : ∀ (evs : List Evaluation) (st : PR) (n s : String)
    (off : Nat),
    (∀ ev ∈ evs, evKey ev = (n, s) → ev = Evaluation.updateSolution n s off) →
    Evaluation.updateSolution n s off ∈ evs →
    containsEdge st n s = true →
    lookupEdge (applyEvals evs st).2 n s =
      { lookupEdge st n s with lastSuccessfulResolution := some off } := by
  intro evs
  induction evs with
  | nil =>
    intro st n s off _ hmem _
    exact absurd hmem (List.not_mem_nil _)
  | cons ev rest ih =>
    intro st n s off h hmem hcont
    have hrest : ∀ ev2 ∈ rest, evKey ev2 = (n, s) → ev2 = Evaluation.updateSolution n s off :=
      fun ev2 hm => h ev2 (List.mem_cons_of_mem ev hm)
    by_cases hev : ev = Evaluation.updateSolution n s off
    · subst hev
      rw [applyEvals_cons_update]
      have base := lookupEdge_setLast_self st n s off hcont
      rcases applyEvals_lookup_update_weak rest (setLast st n s off) n s off hrest with h1 | h1
      · rw [h1, base]
      · rw [h1, base]
    · have hkey : evKey ev ≠ (n, s) := fun hk => hev (h ev (List.mem_cons_self ev rest) hk)
      have hmem2 : Evaluation.updateSolution n s off ∈ rest := by
        cases List.mem_cons.mp hmem with
        | inl heq => exact absurd heq.symm hev
        | inr hm => exact hm
      cases ev with
      | updateSolution n2 s2 o2 =>
        have hne : ¬ (n2 = n ∧ s2 = s) := by
          intro hc
          exact hkey (by rw [evKey, hc.1, hc.2])
        have hcont2 : containsEdge (setLast st n2 s2 o2) n s = true := by
          rw [containsEdge_congr (edgeKeys_setLast st n2 s2 o2) n s]
          exact hcont
        rw [applyEvals_cons_update, ih (setLast st n2 s2 o2) n s off hrest hmem2 hcont2,
          lookupEdge_setLast_ne st n2 s2 o2 n s hne]
      | removeAndLog n2 s2 c2 =>
        have hne : ¬ (n2 = n ∧ s2 = s) := by
          intro hc
          exact hkey (by rw [evKey, hc.1, hc.2])
        have hcont2 : containsEdge (removeApplied st n2 s2) n s = true := by
          rw [containsEdge_congr (edgeKeys_removeApplied st n2 s2) n s]
          exact hcont
        rw [applyEvals_cons_remove]
        show lookupEdge (applyEvals rest (removeApplied st n2 s2)).2 n s = _
        rw [ih (removeApplied st n2 s2) n s off hrest hmem2 hcont2, lookupEdge_removeApplied,
          lookupEdge_setUnsat_ne st n2 s2 n s hne]

/-- If a `removeAndLog` proposal for an existing edge is among the batch, the
apply phase latches that edge unsatisfiable. -/
theorem applyEvals_unsat_of_remove_mem : ∀ (evs : List Evaluation) (st : PR) (n s : String)
    (c : Option Nat),
    Evaluation.removeAndLog n s c ∈ evs →
    containsEdge st n s = true →
    (lookupEdge (applyEvals evs st).2 n s).unsatisfiable = true := by
  intro evs
  induction evs with
  | nil =>
    intro st n s c hmem _
    exact absurd hmem (List.not_mem_nil _)
  | cons ev rest ih =>
    intro st n s c hmem hcont
    by_cases hself : ∃ c2, ev = Evaluation.removeAndLog n s c2
    · obtain ⟨c2, rfl⟩ := hself
      rw [applyEvals_cons_remove]
      show (lookupEdge (applyEvals rest (removeApplied st n s)).2 n s).unsatisfiable = true
      refine applyEvals_unsat_mono rest (removeApplied st n s) n s ?_
      rw [lookupEdge_removeApplied, lookupEdge_setUnsat_self st n s hcont]
    · have hmem2 : Evaluation.removeAndLog n s c ∈ rest := by
        cases List.mem_cons.mp hmem with
        | inl heq => exact absurd ⟨c, heq.symm⟩ hself
        | inr hm => exact hm
      cases ev with
      | updateSolution n2 s2 o2 =>
        have hcont2 : containsEdge (setLast st n2 s2 o2) n s = true := by
          rw [containsEdge_congr (edgeKeys_setLast st n2 s2 o2) n s]
          exact hcont
        rw [applyEvals_cons_update]
        exact ih (setLast st n2 s2 o2) n s c hmem2 hcont2
      | removeAndLog n2 s2 c2 =>
        have hcont2 : containsEdge (removeApplied st n2 s2) n s = true := by
          rw [containsEdge_congr (edgeKeys_removeApplied st n2 s2) n s]
          exact hcont
        rw [applyEvals_cons_remove]
        show (lookupEdge (applyEvals rest (removeApplied st n2 s2)).2 n s).unsatisfiable = true
        exact ih (removeApplied st n2 s2) n s c hmem2 hcont2

/-- With duplicate-free keys, lookup of a member's key finds that member. -/
theorem find?_of_mem_nodupkeys : ∀ (es : List (String × String × Edge)),
    (es.map (fun x => (x.1, x.2.1))).Nodup → ∀ (n s : String) (e : Edge),
    (n, s, e) ∈ es → es.find? (edgePred n s) = some (n, s, e) := by
  intro es
  induction es with
  | nil =>
    intro _ n s e hm
    cases hm
  | cons a rest ih =>
    intro hnd n s e hm
    rw [List.map_cons, List.nodup_cons] at hnd
    by_cases hp : edgePred n s a = true
    · have hka : a.1 = n ∧ a.2.1 = s := by
        unfold edgePred at hp
        simp only [Bool.and_eq_true, beq_iff_eq] at hp
        exact hp
      rw [List.find?_cons_of_pos _ hp]
      cases List.mem_cons.mp hm with
      | inl heq => rw [heq]
      | inr hmr =>
        exfalso
        apply hnd.1
        have hmem : (n, s) ∈ rest.map (fun x => (x.1, x.2.1)) :=
          List.mem_map.mpr ⟨(n, s, e), hmr, rfl⟩
        rw [show (a.1, a.2.1) = (n, s) from by rw [hka.1, hka.2]]
        exact hmem
    · rw [List.find?_cons_of_neg _ hp]
      apply ih hnd.2 n s e
      cases List.mem_cons.mp hm with
      | inl heq =>
        exfalso
        apply hp
        rw [← heq]
        unfold edgePred
        simp
      | inr hmr => exact hmr

/-- An existing key's lookup is itself a member of the edge table. -/
theorem mem_of_containsEdge (st : PR) (n s : String) (h : containsEdge st n s = true) :
    (n, s, lookupEdge st n s) ∈ st.edges := by
  cases hf : st.edges.find? (edgePred n s) with
  | none =>
    exfalso
    have hany : st.edges.any (edgePred n s) = true := h
    obtain ⟨x, hx, hpx⟩ := List.any_eq_true.mp hany
    exact (List.find?_eq_none.mp hf x hx) hpx
  | some x =>
    have hmem := List.mem_of_find?_eq_some hf
    have hk := keys_of_find? hf
    have hx : (n, s, lookupEdge st n s) = x := by
      rw [lookupEdge_eq_find?, hf]
      obtain ⟨x1, x2, x3⟩ := x
      simp only at hk
      rw [hk.1, hk.2]
      rfl
    rw [hx]
    exact hmem

/-- A member's key is contained. -/
theorem containsEdge_of_mem (st : PR) (n s : String) (e : Edge)
    (hm : (n, s, e) ∈ st.edges) : containsEdge st n s = true :=
  List.any_eq_true.mpr ⟨(n, s, e), hm, by simp [edgePred]⟩

/-- Membership in the candidate edge list of an invocation. -/
theorem mem_edgesFor (st : PR) (D : List String) (x : String × String × Edge) :
    x ∈ edgesFor st D ↔ x ∈ st.edges ∧ x.1 ∈ D := by
  unfold edgesFor
  rw [List.mem_flatMap]
  constructor
  · rintro ⟨dn, hdn, hx⟩
    have hf := List.mem_filter.mp hx
    have hkey : x.1 = dn := by simpa using hf.2
    exact ⟨hf.1, hkey ▸ hdn⟩
  · rintro ⟨hx, hD⟩
    exact ⟨x.1, hD, List.mem_filter.mpr ⟨hx, by simp⟩⟩

/-- Membership in the proposal batch of an invocation. -/
theorem mem_evalsOf (M : String → Rec → Bool) (st : PR) (D : List String) (w : Evaluation) :
    w ∈ evalsOf M st D ↔
      ∃ x, x ∈ edgesFor st D ∧ x.2.2.unsatisfiable = false ∧
        evaluate M st x.1 x.2.1 x.2.2 = some w := by
  unfold evalsOf
  rw [List.mem_filterMap]
  constructor
  · rintro ⟨x, hx, hfx⟩
    by_cases hu : x.2.2.unsatisfiable = true
    · rw [if_pos hu] at hfx
      cases hfx
    · rw [if_neg hu] at hfx
      exact ⟨x, hx, Bool.not_eq_true _ ▸ Bool.of_not_eq_true hu, hfx⟩
  · rintro ⟨x, hx, hu, hev⟩
    refine ⟨x, hx, ?_⟩
    rw [if_neg (by rw [hu]; exact Bool.false_ne_true)]
    exact hev

/-- A proposal produced by `evaluate` carries the evaluated edge's key. -/
theorem evKey_evaluate (M : String → Rec → Bool) (st : PR) (n s : String) (e : Edge)
    (w : Evaluation) (h : evaluate M st n s e = some w) : evKey w = (n, s) := by
  simp only [evaluate] at h
  split at h
  · cases h
  · split at h
    · cases h
      rfl
    · cases h
      rfl

/-- Full characterisation of a successful linear search over an index range:
bounds, the found property, and minimality. -/
theorem find?_range'_spec (p : Nat → Bool) :
    ∀ (n a i : Nat), (List.range' a n).find? p = some i →
      a ≤ i ∧ i < a + n ∧ p i = true ∧ ∀ j, a ≤ j → j < i → p j = false := by
  intro n
  induction n with
  | zero =>
    intro a i h
    simp [List.range'] at h
  | succ m ih =>
    intro a i h
    rw [List.range'_succ] at h
    by_cases hp : p a = true
    · rw [List.find?_cons_of_pos _ hp] at h
      cases h
      refine ⟨Nat.le_refl a, by omega, hp, ?_⟩
      intro j hj1 hj2
      omega
    · rw [List.find?_cons_of_neg _ hp] at h
      obtain ⟨h1, h2, h3, h4⟩ := ih (a + 1) i h
      refine ⟨by omega, by omega, h3, ?_⟩
      intro j hj1 hj2
      rcases Nat.eq_or_lt_of_le hj1 with heq | hlt
      · rw [← heq]
        cases hpa : p a with
        | false => rfl
        | true => exact absurd hpa hp
      · exact h4 j (by omega) hj2

/-- A failed linear search over an index range refutes the property on the
whole range. -/
theorem find?_range'_none (p : Nat → Bool) (n a : Nat)
    (h : (List.range' a n).find? p = none) :
    ∀ j, a ≤ j → j < a + n → p j = false := by
  intro j h1 h2
  have hnp := List.find?_eq_none.mp h j (List.mem_range'_1.mpr ⟨h1, h2⟩)
  cases hpj : p j with
  | false => rfl
  | true => exact absurd hpj hnp

/-- The cache-hit rule of `evaluate`: a still-alive previous provider yields
no proposal. -/
theorem evaluate_cache_hit (M : String → Rec → Bool) (st : PR) (n s : String) (e : Edge)
    (off : Nat) (h1 : e.lastSuccessfulResolution = some off)
    (h2 : removedAt st ((candidatesOf st n).1 + off) = false) :
    evaluate M st n s e = none := by
  simp [evaluate, h1, h2]

/-- `evaluate` never proposes anything on a cache hit, and a proposal other
than a cache hit only arises when the cached provider is removed or absent. -/
theorem evaluate_update_spec (M : String → Rec → Bool) (st : PR) (n s : String) (e : Edge)
    (off : Nat) (h : evaluate M st n s e = some (Evaluation.updateSolution n s off)) :
    aliveMatch M st s ((candidatesOf st n).1 + off) = true ∧
    off < (candidatesOf st n).2 ∧
    (∀ m, e.lastSuccessfulResolution = some m →
      m ≤ off ∧ ∀ j, m ≤ j → j < off →
        aliveMatch M st s ((candidatesOf st n).1 + j) = false) ∧
    (e.lastSuccessfulResolution = none →
      ∀ j, j < off → aliveMatch M st s ((candidatesOf st n).1 + j) = false) := by
  simp only [evaluate] at h
  split at h
  · cases h
  · split at h
    case _ i hfind =>
      cases h
      cases hlast : e.lastSuccessfulResolution with
      | some m =>
        rw [hlast] at hfind
        simp only [searchRange] at hfind
        obtain ⟨h1, h2, h3, h4⟩ := find?_range'_spec _ _ _ _ hfind
        have hi : (candidatesOf st n).1 + (i - (candidatesOf st n).1) = i := by omega
        refine ⟨by rw [hi]; exact h3, by omega, ?_, ?_⟩
        · intro m2 hm2
          cases hm2
          refine ⟨by omega, ?_⟩
          intro j hj1 hj2
          exact h4 ((candidatesOf st n).1 + j) (by omega) (by omega)
        · intro hnone
          cases hnone
      | none =>
        rw [hlast] at hfind
        simp only [searchRange] at hfind
        obtain ⟨h1, h2, h3, h4⟩ := find?_range'_spec _ _ _ _ hfind
        have hi : (candidatesOf st n).1 + (i - (candidatesOf st n).1) = i := by omega
        refine ⟨by rw [hi]; exact h3, by omega, ?_, ?_⟩
        · intro m2 hm2
          cases hm2
        · intro _ j hj
          exact h4 ((candidatesOf st n).1 + j) (by omega) (by omega)
    case _ hfind => cases h

/-- Characterisation of the cause attribution when `evaluate` finds no
provider: the cached provider's index when one was recorded, otherwise the
first removed-but-matching index of the full range, otherwise nothing. -/
theorem evaluate_remove_spec (M : String → Rec → Bool) (st : PR) (n s : String) (e : Edge)
    (cause : Option Nat)
    (h : evaluate M st n s e = some (Evaluation.removeAndLog n s cause)) :
    (∀ m, e.lastSuccessfulResolution = some m → cause = some ((candidatesOf st n).1 + m)) ∧
    (e.lastSuccessfulResolution = none →
      cause = (List.range' (candidatesOf st n).1 (candidatesOf st n).2).find?
        (removedMatch M st s)) ∧
    (∀ i, e.lastSuccessfulResolution = none → cause = some i →
      (candidatesOf st n).1 ≤ i ∧ i < (candidatesOf st n).1 + (candidatesOf st n).2 ∧
      removedMatch M st s i = true ∧
      ∀ j, (candidatesOf st n).1 ≤ j → j < i → removedMatch M st s j = false) ∧
    (e.lastSuccessfulResolution = none → cause = none →
      ∀ j, (candidatesOf st n).1 ≤ j → j < (candidatesOf st n).1 + (candidatesOf st n).2 →
        removedMatch M st s j = false) ∧
    (∀ m, e.lastSuccessfulResolution = some m →
      ∀ j, m ≤ j → j < (candidatesOf st n).2 →
        aliveMatch M st s ((candidatesOf st n).1 + j) = false) ∧
    (e.lastSuccessfulResolution = none →
      ∀ j, j < (candidatesOf st n).2 →
        aliveMatch M st s ((candidatesOf st n).1 + j) = false) := by
  simp only [evaluate] at h
  split at h
  · cases h
  · split at h
    case _ i hfind => cases h
    case _ hfind =>
      cases hlast : e.lastSuccessfulResolution with
      | some m =>
        rw [hlast] at hfind h
        simp only [searchRange] at hfind
        have hgap := find?_range'_none _ _ _ hfind
        cases h
        refine ⟨?_, ?_, ?_, ?_, ?_, ?_⟩
        · intro m2 hm2
          cases hm2
          rfl
        · intro hnone
          cases hnone
        · intro i hnone
          cases hnone
        · intro hnone
          cases hnone
        · intro m2 hm2 j hj1 hj2
          cases hm2
          exact hgap ((candidatesOf st n).1 + j) (by omega) (by omega)
        · intro hnone
          cases hnone
      | none =>
        rw [hlast] at hfind h
        simp only [searchRange] at hfind
        have hgap := find?_range'_none _ _ _ hfind
        cases h
        refine ⟨?_, ?_, ?_, ?_, ?_, ?_⟩
        · intro m2 hm2
          cases hm2
        · intro _
          simp only [searchRange]
        · intro i _ hcause
          simp only [searchRange] at hcause
          exact find?_range'_spec _ _ _ _ hcause
        · intro _ hcause
          simp only [searchRange] at hcause
          exact find?_range'_none _ _ _ hcause
        · intro m2 hm2
          cases hm2
        · intro _ j hj
          exact hgap ((candidatesOf st n).1 + j) (by omega) (by omega)

/-- `evaluate` reads the state only through the bitmap, the package table and
the name ranges: states agreeing on those evaluate identically. -/
theorem evaluate_congr (M : String → Rec → Bool) (st st2 : PR) (n s : String) (e : Edge)
    (hr : st2.removed = st.removed) (hm : st2.packageMetadatas = st.packageMetadatas)
    (hn : st2.nameRanges = st.nameRanges) :
    evaluate M st2 n s e = evaluate M st n s e := by
  have hrem : ∀ i, removedAt st2 i = removedAt st i := fun i => by
    unfold removedAt
    rw [hr]
  have hrec : ∀ i, recAt st2 i = recAt st i := fun i => by
    unfold recAt
    rw [hm]
  have hcand : candidatesOf st2 n = candidatesOf st n := by
    unfold candidatesOf lookupRange
    rw [hn]
  have halive : aliveMatch M st2 s = aliveMatch M st s := by
    funext i
    unfold aliveMatch
    rw [hrem i, hrec i]
  have hremM : removedMatch M st2 s = removedMatch M st s := by
    funext i
    unfold removedMatch
    rw [hrem i, hrec i]
  simp only [evaluate, hcand, halive, hremM, hrem]

/-- Unfolding of `evalsOf` emptiness through `filterMap`. -/
theorem evalsOf_eq_nil_iff (M : String → Rec → Bool) (st : PR) (D : List String) :
    evalsOf M st D = [] ↔ ∀ x ∈ edgesFor st D,
      (if x.2.2.unsatisfiable then none else evaluate M st x.1 x.2.1 x.2.2) = none := by
  unfold evalsOf
  exact List.filterMap_eq_nil_iff

/-- With duplicate-free keys, every proposal carrying a given member edge's
key arises from evaluating that edge. -/
theorem evalsOf_key_unique (M : String → Rec → Bool) (st : PR) (D : List String)
    (hU : keysNodup st) (n s : String) (e : Edge) (hmem : (n, s, e) ∈ st.edges)
    (w : Evaluation) (hw : w ∈ evalsOf M st D) (hk : evKey w = (n, s)) :
    e.unsatisfiable = false ∧ evaluate M st n s e = some w := by
  obtain ⟨x, hxF, hxu, hxev⟩ := (mem_evalsOf M st D w).mp hw
  obtain ⟨hxe, hxD⟩ := (mem_edgesFor st D x).mp hxF
  obtain ⟨xn, xs, xe⟩ := x
  have hkx := evKey_evaluate M st xn xs xe w hxev
  rw [hk] at hkx
  have hxn : n = xn ∧ s = xs := Prod.mk.injEq .. ▸ hkx
  obtain ⟨rfl, rfl⟩ := hxn
  have hf1 := find?_of_mem_nodupkeys st.edges hU n s e hmem
  have hf2 := find?_of_mem_nodupkeys st.edges hU n s xe hxe
  rw [hf1] at hf2
  have hee : e = xe := by
    injection hf2 with hx2
    injection hx2 with _ hx3
    injection hx3
  rw [hee]
  exact ⟨hxu, hxev⟩

/-- A non-unsatisfiable member edge whose evaluation proposes `w` contributes
`w` to the proposal batch when its name is a candidate. -/
theorem evalsOf_mem_of_eval (M : String → Rec → Bool) (st : PR) (D : List String)
    (n s : String) (e : Edge) (w : Evaluation) (hmem : (n, s, e) ∈ st.edges) (hD : n ∈ D)
    (hu : e.unsatisfiable = false) (hev : evaluate M st n s e = some w) :
    w ∈ evalsOf M st D :=
  (mem_evalsOf M st D w).mpr
    ⟨(n, s, e), (mem_edgesFor st D (n, s, e)).mpr ⟨hmem, hD⟩, hu, hev⟩

/-- C4 (amended): once an invocation of `find_unresolveables` returns an
empty log, a repeat invocation with the same candidate names removes no
packages, returns an empty log, and leaves the state untouched. -/
theorem c4_empty_log_fixed_point (M : String → Rec → Bool) (st : PR) (D : List String)
    (hU : keysNodup st) (hnil : (findUnresolveables M st D).1 = []) :
    findUnresolveables M (findUnresolveables M st D).2 D =
      ([], (findUnresolveables M st D).2) := by
  unfold findUnresolveables at hnil ⊢
  have hmeta : ((applyEvals (evalsOf M st D) st).2).packageMetadatas = st.packageMetadatas :=
    applyEvals_metadatas _ _
  have hrange : ((applyEvals (evalsOf M st D) st).2).nameRanges = st.nameRanges :=
    applyEvals_ranges _ _
  have hkeys : edgeKeys (applyEvals (evalsOf M st D) st).2 = edgeKeys st :=
    applyEvals_edgeKeys _ _
  have hrem : ((applyEvals (evalsOf M st D) st).2).removed = st.removed :=
    applyEvals_removed_of_nil _ _ hnil
  have hU1 : keysNodup (applyEvals (evalsOf M st D) st).2 := by
    unfold keysNodup
    rw [hkeys]
    exact hU
  have hempty : evalsOf M (applyEvals (evalsOf M st D) st).2 D = [] := by
    rw [evalsOf_eq_nil_iff]
    intro x hx
    obtain ⟨hxe1, hxD⟩ := (mem_edgesFor _ D x).mp hx
    obtain ⟨xn, xs, xe⟩ := x
    have hfind1 := find?_of_mem_nodupkeys _ hU1 xn xs xe hxe1
    have hlook1 : lookupEdge (applyEvals (evalsOf M st D) st).2 xn xs = xe := by
      rw [lookupEdge_eq_find?, hfind1]
      rfl
    have hcont : containsEdge st xn xs = true := by
      have hc1 : containsEdge (applyEvals (evalsOf M st D) st).2 xn xs = true :=
        containsEdge_of_mem _ xn xs xe hxe1
      rw [containsEdge_congr hkeys] at hc1
      exact hc1
    have hmem0 : (xn, xs, lookupEdge st xn xs) ∈ st.edges := mem_of_containsEdge st xn xs hcont
    by_cases hu : (lookupEdge st xn xs).unsatisfiable = true
    · have hu1 : xe.unsatisfiable = true := by
        have hmono := applyEvals_unsat_mono (evalsOf M st D) st xn xs hu
        rw [hlook1] at hmono
        exact hmono
      simp [hu1]
    · have hu0 : (lookupEdge st xn xs).unsatisfiable = false := Bool.of_not_eq_true hu
      cases hev : evaluate M st xn xs (lookupEdge st xn xs) with
      | none =>
        have hnokey : ∀ w ∈ evalsOf M st D, evKey w ≠ (xn, xs) := by
          intro w hw hk
          obtain ⟨_, hev2⟩ := evalsOf_key_unique M st D hU xn xs _ hmem0 w hw hk
          rw [hev] at hev2
          cases hev2
        have hxe_eq : xe = lookupEdge st xn xs := by
          rw [← hlook1]
          exact applyEvals_lookup_of_no_key (evalsOf M st D) st xn xs hnokey
        have hcongr := evaluate_congr M st (applyEvals (evalsOf M st D) st).2 xn xs xe
          hrem hmeta hrange
        have hnone : evaluate M (applyEvals (evalsOf M st D) st).2 xn xs xe = none := by
          rw [hcongr, hxe_eq, hev]
        have hxeu : xe.unsatisfiable = false := by
          rw [hxe_eq]
          exact hu0
        simp only [hxeu, Bool.false_eq_true, if_false, hnone]
      | some w =>
        have hw : w ∈ evalsOf M st D :=
          evalsOf_mem_of_eval M st D xn xs _ w hmem0 hxD hu0 hev
        have hkeyw := evKey_evaluate M st xn xs _ w hev
        cases w with
        | updateSolution n2 s2 off =>
          have hns : n2 = xn ∧ s2 = xs := by
            rw [evKey] at hkeyw
            exact Prod.mk.injEq .. ▸ hkeyw
          obtain ⟨rfl, rfl⟩ := hns
          have hall : ∀ w2 ∈ evalsOf M st D, evKey w2 = (n2, s2) →
              w2 = Evaluation.updateSolution n2 s2 off := by
            intro w2 hw2 hk2
            obtain ⟨_, hev2⟩ := evalsOf_key_unique M st D hU n2 s2 _ hmem0 w2 hw2 hk2
            rw [hev] at hev2
            injection hev2 with hv
            rw [hv]
          have hstrong := applyEvals_lookup_update_strong (evalsOf M st D) st n2 s2 off
            hall hw hcont
          have hxe_eq : xe =
              { lookupEdge st n2 s2 with lastSuccessfulResolution := some off } := by
            rw [← hlook1]
            exact hstrong
          obtain ⟨halive, hoff, _, _⟩ := evaluate_update_spec M st n2 s2 _ off hev
          have hrm : removedAt st ((candidatesOf st n2).1 + off) = false := by
            have h1 : (!removedAt st ((candidatesOf st n2).1 + off)) = true := by
              unfold aliveMatch at halive
              exact ((Bool.and_eq_true _ _).mp halive).1
            cases hb : removedAt st ((candidatesOf st n2).1 + off) with
            | false => rfl
            | true =>
              rw [hb] at h1
              exact Bool.noConfusion h1
          have hcand1 : candidatesOf (applyEvals (evalsOf M st D) st).2 n2 =
              candidatesOf st n2 := by
            unfold candidatesOf lookupRange
            rw [hrange]
          have hrm1 : removedAt (applyEvals (evalsOf M st D) st).2
              ((candidatesOf (applyEvals (evalsOf M st D) st).2 n2).1 + off) = false := by
            unfold removedAt
            rw [hrem, hcand1]
            exact hrm
          have hnone := evaluate_cache_hit M (applyEvals (evalsOf M st D) st).2 n2 s2 xe off
            (by rw [hxe_eq]) hrm1
          have hxeu : xe.unsatisfiable = false := by
            rw [hxe_eq]
            exact hu0
          simp only [hxeu, Bool.false_eq_true, if_false, hnone]
        | removeAndLog n2 s2 c =>
          have hns : n2 = xn ∧ s2 = xs := by
            rw [evKey] at hkeyw
            exact Prod.mk.injEq .. ▸ hkeyw
          obtain ⟨rfl, rfl⟩ := hns
          have hu1 : xe.unsatisfiable = true := by
            have := applyEvals_unsat_of_remove_mem (evalsOf M st D) st n2 s2 c hw hcont
            rw [hlook1] at this
            exact this
          simp [hu1]
  rw [hempty]
  rfl

/-- C4 counterexample: on the chain graph `a → b → c` (no provider for `c`),
the first invocation of `find_unresolveables` with candidates `b, c` caches a
resolution for the `b` edge and then removes `b-1`; the second identical
invocation therefore removes `a-1` and returns a further non-empty log — a
single invocation does not reach the fixed point. -/
theorem c4_counterexample :
    (findUnresolveables matchAnyOnEmpty
        (findUnresolveables matchAnyOnEmpty stChain ["b", "c"]).2 ["b", "c"]).1 ≠ [] ∧
    removedAt (findUnresolveables matchAnyOnEmpty
        (findUnresolveables matchAnyOnEmpty stChain ["b", "c"]).2 ["b", "c"]).2 0 = true ∧
    removedAt (findUnresolveables matchAnyOnEmpty stChain ["b", "c"]).2 0 = false := by
  decide

/-- Witness for the amended C4 at a concrete state whose first invocation is
already empty. -/
theorem c4_witness :
    keysNodup stChain ∧
    (findUnresolveables matchAnyOnEmpty stChain ["nosuch"]).1 = [] ∧
    findUnresolveables matchAnyOnEmpty
        (findUnresolveables matchAnyOnEmpty stChain ["nosuch"]).2 ["nosuch"] =
      ([], (findUnresolveables matchAnyOnEmpty stChain ["nosuch"]).2) :=
  ⟨by unfold keysNodup; decide, by decide,
    c4_empty_log_fixed_point matchAnyOnEmpty stChain ["nosuch"]
      (by unfold keysNodup; decide) (by decide)⟩

/-! ## C6, C7, C8 -/

/-- C6: during `find_unresolveables`, an edge whose recorded
`last_successful_resolution` points at a still-alive provider proposes no
change: `evaluate` returns no proposal, no proposal in the whole batch
carries the edge's key, and the edge's fields after the invocation are
exactly its fields before. -/
theorem c6_cache_hit_no_change (M : String → Rec → Bool) (st : PR) (n s : String) (e : Edge)
    (off : Nat) (h1 : e.lastSuccessfulResolution = some off)
    (h2 : st.removed.get? ((candidatesOf st n).1 + off) = some false) :
    evaluate M st n s e = none ∧
    (keysNodup st → (n, s, e) ∈ st.edges → ∀ D,
      (∀ w ∈ evalsOf M st D, evKey w ≠ (n, s)) ∧
      lookupEdge (findUnresolveables M st D).2 n s = e) := by
  have hrm : removedAt st ((candidatesOf st n).1 + off) = false := by
    unfold removedAt
    rw [List.getD_eq_getElem?_getD, ← List.get?_eq_getElem?, h2]
    rfl
  have hnone : evaluate M st n s e = none := evaluate_cache_hit M st n s e off h1 hrm
  refine ⟨hnone, ?_⟩
  intro hU hmem D
  have hnokey : ∀ w ∈ evalsOf M st D, evKey w ≠ (n, s) := by
    intro w hw hk
    obtain ⟨_, hev2⟩ := evalsOf_key_unique M st D hU n s e hmem w hw hk
    rw [hnone] at hev2
    cases hev2
  refine ⟨hnokey, ?_⟩
  have hst : lookupEdge st n s = e := by
    rw [lookupEdge_eq_find?, find?_of_mem_nodupkeys st.edges hU n s e hmem]
    rfl
  show lookupEdge (applyEvals (evalsOf M st D) st).2 n s = e
  rw [applyEvals_lookup_of_no_key (evalsOf M st D) st n s hnokey, hst]

/-- Witness for C6 on the chain graph: the `b` edge's cached provider `b-1`
is alive, so `evaluate` proposes nothing. -/
theorem c6_witness :
    edgeCached.lastSuccessfulResolution = some 0 ∧
    stChain.removed.get? ((candidatesOf stChain "b").1 + 0) = some false ∧
    evaluate matchAnyOnEmpty stChain "b" "" edgeCached = none :=
  ⟨rfl, by decide,
    (c6_cache_hit_no_change matchAnyOnEmpty stChain "b" "" edgeCached 0 rfl (by decide)).1⟩

/-- C7: when `evaluate` proposes a new resolution at offset `off`, the
provider at `base + off` is alive and matches; `off` lies inside the name
range; with a recorded middle `m` the search never wraps below `base + m`
and `off` is the first hit of the tail, otherwise it is the first hit of the
full range; applying the proposal records `off` as the edge's new
`last_successful_resolution`; and when a recorded middle is present but the
search fails, the whole tail (and only the tail is consulted) has no live
match. -/
theorem c7_wrap_from_middle (M : String → Rec → Bool) (st : PR) (n s : String) (e : Edge) :
    (∀ off, evaluate M st n s e = some (Evaluation.updateSolution n s off) →
      aliveMatch M st s ((candidatesOf st n).1 + off) = true ∧
      off < (candidatesOf st n).2 ∧
      (∀ m, e.lastSuccessfulResolution = some m →
        m ≤ off ∧ ∀ j, m ≤ j → j < off →
          aliveMatch M st s ((candidatesOf st n).1 + j) = false) ∧
      (e.lastSuccessfulResolution = none →
        ∀ j, j < off → aliveMatch M st s ((candidatesOf st n).1 + j) = false) ∧
      (∀ st2, containsEdge st2 n s = true →
        lookupEdge (applyEvals [Evaluation.updateSolution n s off] st2).2 n s =
          { lookupEdge st2 n s with lastSuccessfulResolution := some off })) ∧
    (∀ m cause, e.lastSuccessfulResolution = some m →
      evaluate M st n s e = some (Evaluation.removeAndLog n s cause) →
      ∀ j, m ≤ j → j < (candidatesOf st n).2 →
        aliveMatch M st s ((candidatesOf st n).1 + j) = false) := by
  constructor
  · intro off h
    obtain ⟨h1, h2, h3, h4⟩ := evaluate_update_spec M st n s e off h
    refine ⟨h1, h2, h3, h4, ?_⟩
    intro st2 hcont
    rw [applyEvals_cons_update]
    show lookupEdge (setLast st2 n s off) n s = _
    exact lookupEdge_setLast_self st2 n s off hcont
  · intro m cause hm h
    obtain ⟨_, _, _, _, h5, _⟩ := evaluate_remove_spec M st n s e cause h
    exact h5 m hm

/-- Witness for C7 on a two-provider range whose first provider is removed:
the search selects offset 1 and the proposal records it. -/
theorem c7_witness :
    evaluate matchAnyOnEmpty stSearch "p" "" edgeFresh =
        some (Evaluation.updateSolution "p" "" 1) ∧
    aliveMatch matchAnyOnEmpty stSearch "" ((candidatesOf stSearch "p").1 + 1) = true ∧
    1 < (candidatesOf stSearch "p").2 :=
  ⟨by decide,
    ((c7_wrap_from_middle matchAnyOnEmpty stSearch "p" "" edgeFresh).1 1 (by decide)).1,
    ((c7_wrap_from_middle matchAnyOnEmpty stSearch "p" "" edgeFresh).1 1 (by decide)).2.1⟩

/-- C8: when `evaluate` finds no provider, the cause it attaches is the
recorded provider's index when a resolution was recorded, otherwise the first
removed-but-matching index of the full range, otherwise nothing; and every
`RemovedUnsatisfiable` log emitted when the proposal is applied carries
`cause_filename` equal to the filename at that cause index. -/
theorem c8_cause_attribution (M : String → Rec → Bool) (st : PR) (n s : String) (e : Edge)
    (cause : Option Nat)
    (h : evaluate M st n s e = some (Evaluation.removeAndLog n s cause)) :
    (∀ m, e.lastSuccessfulResolution = some m → cause = some ((candidatesOf st n).1 + m)) ∧
    (∀ i, e.lastSuccessfulResolution = none → cause = some i →
      (candidatesOf st n).1 ≤ i ∧ i < (candidatesOf st n).1 + (candidatesOf st n).2 ∧
      removedMatch M st s i = true ∧
      ∀ j, (candidatesOf st n).1 ≤ j → j < i → removedMatch M st s j = false) ∧
    (e.lastSuccessfulResolution = none → cause = none →
      ∀ j, (candidatesOf st n).1 ≤ j → j < (candidatesOf st n).1 + (candidatesOf st n).2 →
        removedMatch M st s j = false) ∧
    (∀ st2 l, l ∈ (applyEvals [Evaluation.removeAndLog n s cause] st2).1 →
      l.causeFilename = cause.map (filenameAt st2)) := by
  obtain ⟨g1, _, g3, g4, _, _⟩ := evaluate_remove_spec M st n s e cause h
  refine ⟨g1, g3, g4, ?_⟩
  intro st2 l hl
  rw [applyEvals_cons_remove] at hl
  simp only [applyEvals, List.append_nil] at hl
  obtain ⟨i, _, rfl⟩ := List.mem_map.mp hl
  rfl

/-- Witness for C8: the sole provider is removed but matches, so the cause is
its index and the emitted log names its filename. -/
theorem c8_witness :
    evaluate matchAnyOnEmpty stGoneE "p" "" edgeFresh =
        some (Evaluation.removeAndLog "p" "" (some 0)) ∧
    removedMatch matchAnyOnEmpty stGoneE "" 0 = true ∧
    (mkUnsatLog (setUnsat stGoneE "p" "") "p" "" (some 0) 0).causeFilename =
      (some 0).map (filenameAt stGoneE) :=
  ⟨by decide,
    (((c8_cause_attribution matchAnyOnEmpty stGoneE "p" "" edgeFresh (some 0)
        (by decide)).2.1) 0 rfl rfl).2.2.1,
    ((c8_cause_attribution matchAnyOnEmpty stGoneE "p" "" edgeFresh (some 0)
        (by decide)).2.2.2) stGoneE
      (mkUnsatLog (setUnsat stGoneE "p" "") "p" "" (some 0) 0) (by decide)⟩

/-! ## Monotonicity of the removal bitmap and the unsatisfiable flags (C5) -/

/-- Cons case of `lookupE` when the head key matches. -/
theorem lookupE_cons_pos {a : String × String × Edge} {rest : List (String × String × Edge)}
    (n s : String) (hp : edgePred n s a = true) : lookupE (a :: rest) n s = a.2.2 := by
  unfold lookupE
  rw [List.find?_cons_of_pos _ hp]
  rfl

/-- Cons case of `lookupE` when the head key differs. -/
theorem lookupE_cons_neg {a : String × String × Edge} {rest : List (String × String × Edge)}
    (n s : String) (hp : ¬ edgePred n s a = true) :
    lookupE (a :: rest) n s = lookupE rest n s := by
  unfold lookupE
  rw [List.find?_cons_of_neg _ hp]

/-- `addDepender` never lowers an `unsatisfiable` flag: it only appends a
depender or creates a fresh (non-latched) edge. -/
theorem unsat_lookupE_addDepender : ∀ (es : List (String × String × Edge))
    (dn ds : String) (idx : Nat) (n s : String),
    (lookupE es n s).unsatisfiable = true →
    (lookupE (addDepender es dn ds idx) n s).unsatisfiable = true := by
  intro es
  induction es with
  | nil =>
    intro dn ds idx n s h
    exact Bool.noConfusion h
  | cons a rest ih =>
    intro dn ds idx n s h
    obtain ⟨an, as_, ae⟩ := a
    by_cases hk : an = dn ∧ as_ = ds
    · rw [show addDepender ((an, as_, ae) :: rest) dn ds idx =
          (an, as_, { ae with dependers := ae.dependers ++ [idx] }) :: rest from by
        simp [addDepender, hk]]
      by_cases hp : edgePred n s (an, as_, ae) = true
      · have hp2 : edgePred n s
            (an, as_, { ae with dependers := ae.dependers ++ [idx] }) = true := hp
        rw [lookupE_cons_pos n s hp] at h
        rw [lookupE_cons_pos n s hp2]
        exact h
      · have hp2 : ¬ edgePred n s
            (an, as_, { ae with dependers := ae.dependers ++ [idx] }) = true := hp
        rw [lookupE_cons_neg n s hp] at h
        rw [lookupE_cons_neg n s hp2]
        exact h
    · rw [show addDepender ((an, as_, ae) :: rest) dn ds idx =
          (an, as_, ae) :: addDepender rest dn ds idx from by simp [addDepender, hk]]
      by_cases hp : edgePred n s (an, as_, ae) = true
      · rw [lookupE_cons_pos n s hp] at h
        rw [lookupE_cons_pos n s hp]
        exact h
      · rw [lookupE_cons_neg n s hp] at h
        rw [lookupE_cons_neg n s hp]
        exact ih dn ds idx n s h

/-- `banEdges` never lowers an `unsatisfiable` flag. -/
theorem unsat_lookupE_banEdges : ∀ (es : List (String × String × Edge)) (dn n s : String),
    (lookupE es n s).unsatisfiable = true →
    (lookupE (banEdges es dn) n s).unsatisfiable = true := by
  intro es
  induction es with
  | nil =>
    intro dn n s h
    exact Bool.noConfusion h
  | cons a rest ih =>
    intro dn n s h
    obtain ⟨an, as_, ae⟩ := a
    by_cases ha : an = dn
    · rw [show banEdges ((an, as_, ae) :: rest) dn =
          (an, as_, { ae with unsatisfiable := true }) :: banEdges rest dn from by
        simp [banEdges, ha]]
      by_cases hp : edgePred n s (an, as_, ae) = true
      · have hp2 : edgePred n s (an, as_, { ae with unsatisfiable := true }) = true := hp
        rw [lookupE_cons_pos n s hp2]
      · have hp2 : ¬ edgePred n s (an, as_, { ae with unsatisfiable := true }) = true := hp
        rw [lookupE_cons_neg n s hp] at h
        rw [lookupE_cons_neg n s hp2]
        exact ih dn n s h
    · rw [show banEdges ((an, as_, ae) :: rest) dn =
          (an, as_, ae) :: banEdges rest dn from by simp [banEdges, ha]]
      by_cases hp : edgePred n s (an, as_, ae) = true
      · rw [lookupE_cons_pos n s hp] at h
        rw [lookupE_cons_pos n s hp]
        exact h
      · rw [lookupE_cons_neg n s hp] at h
        rw [lookupE_cons_neg n s hp]
        exact ih dn n s h

/-- `insert` preserves every removal bit (new records start unremoved). -/
theorem removedAt_insertRec (st : PR) (f : String) (r : Rec) (i : Nat)
    (h : removedAt st i = true) : removedAt (insertRec st f r) i = true := by
  have hi : i < st.removed.length := by
    by_contra hlen
    unfold removedAt at h
    rw [List.getD_eq_getElem?_getD, List.getElem?_eq_none (by omega)] at h
    exact Bool.noConfusion h
  unfold removedAt at h ⊢
  show (st.removed ++ [false]).getD i false = true
  rw [List.getD_eq_getElem?_getD, List.getElem?_append_left hi, ← List.getD_eq_getElem?_getD]
  exact h

/-- `insert` preserves every latched `unsatisfiable` flag. -/
theorem unsat_lookupEdge_insertRec (st : PR) (f : String) (r : Rec) (n s : String)
    (h : (lookupEdge st n s).unsatisfiable = true) :
    (lookupEdge (insertRec st f r) n s).unsatisfiable = true := by
  have main : ∀ (ds : List String) (es : List (String × String × Edge)),
      (lookupE es n s).unsatisfiable = true →
      (lookupE (ds.foldl (fun es d =>
          addDepender es (dependsToNameSpec d).1 (dependsToNameSpec d).2
            st.packageMetadatas.length) es) n s).unsatisfiable = true := by
    intro ds
    induction ds with
    | nil => intro es h2; exact h2
    | cons d rest ih =>
      intro es h2
      exact ih _ (unsat_lookupE_addDepender es _ _ _ n s h2)
  exact main r.depends st.edges h

/-- The removal bitmap is untouched by `setRemovedIdx` at other indices and
only raised at its own. -/
theorem removedAt_setRemovedIdx (st : PR) (j i : Nat) (h : removedAt st i = true) :
    removedAt (setRemovedIdx st j) i = true := getD_set_true st.removed j i h

/-- `massRemove` preserves every removal bit. -/
theorem removedAt_massRemove : ∀ (fns : List String) (st : PR) (i : Nat),
    removedAt st i = true → removedAt (massRemove st fns) i = true := by
  intro fns
  induction fns with
  | nil => intro st i h; exact h
  | cons g rest ih =>
    intro st i h
    exact ih (removeByFilename st g) i (removedAt_setRemovedIdx st (filenameIdx st g) i h)

/-- `massRemove` never touches the edge table. -/
theorem massRemove_edges : ∀ (fns : List String) (st : PR),
    (massRemove st fns).edges = st.edges := by
  intro fns
  induction fns with
  | nil => intro st; rfl
  | cons g rest ih => intro st; exact ih (removeByFilename st g)

/-- `massRemove` never touches the package table. -/
theorem massRemove_metadatas : ∀ (fns : List String) (st : PR),
    (massRemove st fns).packageMetadatas = st.packageMetadatas := by
  intro fns
  induction fns with
  | nil => intro st; rfl
  | cons g rest ih => intro st; exact ih (removeByFilename st g)

/-- `massRemove` never touches the name ranges. -/
theorem massRemove_ranges : ∀ (fns : List String) (st : PR),
    (massRemove st fns).nameRanges = st.nameRanges := by
  intro fns
  induction fns with
  | nil => intro st; rfl
  | cons g rest ih => intro st; exact ih (removeByFilename st g)

/-- States with equal edge tables agree on every lookup. -/
theorem lookupEdge_congr_edges {st st2 : PR} (h : st2.edges = st.edges) (n s : String) :
    lookupEdge st2 n s = lookupEdge st n s := by
  rw [lookupEdge_eq_find?, lookupEdge_eq_find?, h]

/-- One `apply_matchspecs` iteration preserves every removal bit. -/
theorem msStep_removed_mono (M : String → Rec → Bool) (specs : List String)
    (acc : List ByUserLog × PR) (index i : Nat) (h : removedAt acc.2 i = true) :
    removedAt (msStep M specs acc index).2 i = true := by
  unfold msStep
  split
  · exact h
  · split
    · exact h
    · exact removedAt_setRemovedIdx acc.2 index i h

/-- One `apply_matchspecs` iteration never touches the edge table. -/
theorem msStep_edges (M : String → Rec → Bool) (specs : List String)
    (acc : List ByUserLog × PR) (index : Nat) :
    (msStep M specs acc index).2.edges = acc.2.edges := by
  unfold msStep
  split
  · rfl
  · split
    · rfl
    · rfl

/-- One `apply_matchspecs` iteration never touches the package table. -/
theorem msStep_metadatas (M : String → Rec → Bool) (specs : List String)
    (acc : List ByUserLog × PR) (index : Nat) :
    (msStep M specs acc index).2.packageMetadatas = acc.2.packageMetadatas := by
  unfold msStep
  split
  · rfl
  · split
    · rfl
    · rfl

/-- One `apply_matchspecs` iteration never touches the name ranges. -/
theorem msStep_ranges (M : String → Rec → Bool) (specs : List String)
    (acc : List ByUserLog × PR) (index : Nat) :
    (msStep M specs acc index).2.nameRanges = acc.2.nameRanges := by
  unfold msStep
  split
  · rfl
  · split
    · rfl
    · rfl

/-- The `apply_matchspecs` fold preserves every removal bit. -/
theorem foldl_msStep_removed_mono (M : String → Rec → Bool) (specs : List String) :
    ∀ (idxs : List Nat) (acc : List ByUserLog × PR) (i : Nat), removedAt acc.2 i = true →
    removedAt (idxs.foldl (msStep M specs) acc).2 i = true := by
  intro idxs
  induction idxs with
  | nil => intro acc i h; exact h
  | cons d rest ih =>
    intro acc i h
    exact ih (msStep M specs acc d) i (msStep_removed_mono M specs acc d i h)

/-- The `apply_matchspecs` fold never touches the edge table. -/
theorem foldl_msStep_edges (M : String → Rec → Bool) (specs : List String) :
    ∀ (idxs : List Nat) (acc : List ByUserLog × PR),
    (idxs.foldl (msStep M specs) acc).2.edges = acc.2.edges := by
  intro idxs
  induction idxs with
  | nil => intro acc; rfl
  | cons d rest ih =>
    intro acc
    exact (ih (msStep M specs acc d)).trans (msStep_edges M specs acc d)

/-- `apply_matchspecs` preserves every removal bit. -/
theorem applyMatchspecs_removed_mono (M : String → Rec → Bool) (st : PR) (pn : String)
    (specs : List String) (i : Nat) (h : removedAt st i = true) :
    removedAt (applyMatchspecs M st pn specs).2 i = true := by
  unfold applyMatchspecs
  cases hr : lookupRange st pn with
  | none => exact h
  | some rng =>
    obtain ⟨start, cnt⟩ := rng
    exact foldl_msStep_removed_mono M specs (List.range' start cnt) ([], st) i h

/-- `apply_matchspecs` never touches the edge table (its only mutation is
removal bits). -/
theorem applyMatchspecs_edges (M : String → Rec → Bool) (st : PR) (pn : String)
    (specs : List String) : (applyMatchspecs M st pn specs).2.edges = st.edges := by
  unfold applyMatchspecs
  cases hr : lookupRange st pn with
  | none => rfl
  | some rng =>
    obtain ⟨start, cnt⟩ := rng
    exact foldl_msStep_edges M specs (List.range' start cnt) ([], st)

/-- `apply_user_matchspecs` preserves every removal bit. -/
theorem applyUserMatchspecs_removed_mono (M : String → Rec → Bool) (st : PR)
    (ums : List (String × List String)) (i : Nat) (h : removedAt st i = true) :
    removedAt (applyUserMatchspecs M st ums).2 i = true := by
  unfold applyUserMatchspecs
  have main : ∀ (l : List (String × List String)) (acc : List ByUserLog × PR),
      removedAt acc.2 i = true → removedAt (l.foldl (umStep M) acc).2 i = true := by
    intro l
    induction l with
    | nil => intro acc h2; exact h2
    | cons pn rest ih =>
      intro acc h2
      refine ih (umStep M acc pn) ?_
      exact applyMatchspecs_removed_mono M acc.2 pn.1 pn.2 i h2
  exact main ums ([], st) h

/-- `apply_user_matchspecs` never touches the edge table. -/
theorem applyUserMatchspecs_edges (M : String → Rec → Bool) (st : PR)
    (ums : List (String × List String)) :
    (applyUserMatchspecs M st ums).2.edges = st.edges := by
  unfold applyUserMatchspecs
  have main : ∀ (l : List (String × List String)) (acc : List ByUserLog × PR),
      (l.foldl (umStep M) acc).2.edges = acc.2.edges := by
    intro l
    induction l with
    | nil => intro acc; rfl
    | cons pn rest ih =>
      intro acc
      exact (ih (umStep M acc pn)).trans (applyMatchspecs_edges M acc.2 pn.1 pn.2)
  exact main ums ([], st)

/-- The must-compatible apply step preserves every removal bit. -/
theorem mcApply_removed_mono (M : String → Rec → Bool) (pkg : String) (names : List String)
    (specsMap : List (String × List String)) (st : PR) (i : Nat)
    (h : removedAt st i = true) :
    removedAt (mcApply M pkg names specsMap st).2 i = true := by
  unfold mcApply
  have main : ∀ (l : List String) (acc : List IncompatLog × PR), removedAt acc.2 i = true →
      removedAt (l.foldl (mcApplyStep M pkg specsMap) acc).2 i = true := by
    intro l
    induction l with
    | nil => intro acc h2; exact h2
    | cons n2 rest ih =>
      intro acc h2
      refine ih (mcApplyStep M pkg specsMap acc n2) ?_
      exact applyMatchspecs_removed_mono M acc.2 n2 _ i h2
  exact main names ([], st) h

/-- The must-compatible apply step never touches the edge table. -/
theorem mcApply_edges (M : String → Rec → Bool) (pkg : String) (names : List String)
    (specsMap : List (String × List String)) (st : PR) :
    (mcApply M pkg names specsMap st).2.edges = st.edges := by
  unfold mcApply
  have main : ∀ (l : List String) (acc : List IncompatLog × PR),
      (l.foldl (mcApplyStep M pkg specsMap) acc).2.edges = acc.2.edges := by
    intro l
    induction l with
    | nil => intro acc; rfl
    | cons n2 rest ih =>
      intro acc
      exact (ih (mcApplyStep M pkg specsMap acc n2)).trans (applyMatchspecs_edges M acc.2 n2 _)
  exact main names ([], st)

/-- The must-compatible recursion fold preserves every removal bit (given the
recursive call does). -/
theorem mcFold_removed_mono (f : PR → String → Option (List IncompatLog × PR))
    (hf : ∀ (st : PR) (n : String) (res : List IncompatLog × PR), f st n = some res →
      ∀ i, removedAt st i = true → removedAt res.2 i = true) :
    ∀ (ns : List String) (logs : List IncompatLog) (st : PR) (res : List IncompatLog × PR),
      mcFold f ns logs st = some res →
      ∀ i, removedAt st i = true → removedAt res.2 i = true := by
  intro ns
  induction ns with
  | nil =>
    intro logs st res h i hi
    injection h with h2
    rw [← h2]
    exact hi
  | cons n2 rest ih =>
    intro logs st res h i hi
    unfold mcFold at h
    cases hf2 : f st n2 with
    | none =>
      rw [hf2] at h
      cases h
    | some r =>
      rw [hf2] at h
      exact ih (logs ++ r.1) r.2 res h i (hf st n2 r hf2 i hi)

/-- The must-compatible recursion fold never touches the edge table (given
the recursive call does not). -/
theorem mcFold_edges (f : PR → String → Option (List IncompatLog × PR))
    (hf : ∀ (st : PR) (n : String) (res : List IncompatLog × PR), f st n = some res →
      res.2.edges = st.edges) :
    ∀ (ns : List String) (logs : List IncompatLog) (st : PR) (res : List IncompatLog × PR),
      mcFold f ns logs st = some res → res.2.edges = st.edges := by
  intro ns
  induction ns with
  | nil =>
    intro logs st res h
    injection h with h2
    rw [← h2]
  | cons n2 rest ih =>
    intro logs st res h
    unfold mcFold at h
    cases hf2 : f st n2 with
    | none =>
      rw [hf2] at h
      cases h
    | some r =>
      rw [hf2] at h
      exact (ih (logs ++ r.1) r.2 res h).trans (hf st n2 r hf2)

/-- `apply_must_compatible`, when it returns, preserves every removal bit. -/
theorem applyMustCompatible_removed_mono (M : String → Rec → Bool) :
    ∀ (fuel : Nat) (st : PR) (pkg : String) (res : List IncompatLog × PR),
      applyMustCompatible M fuel st pkg = some res →
      ∀ i, removedAt st i = true → removedAt res.2 i = true := by
  intro fuel
  induction fuel with
  | zero =>
    intro st pkg res h
    cases h
  | succ fl ih =>
    intro st pkg res h i hi
    simp only [applyMustCompatible] at h
    split at h
    · injection h with h2
      rw [← h2]
      exact hi
    · refine mcFold_removed_mono (applyMustCompatible M fl) ?_ _ _ _ res h i ?_
      · intro st2 n2 res2 h2 j hj
        exact ih st2 n2 res2 h2 j hj
      · exact mcApply_removed_mono M pkg _ _ st i hi

/-- `apply_must_compatible`, when it returns, never touches the edge table. -/
theorem applyMustCompatible_edges (M : String → Rec → Bool) :
    ∀ (fuel : Nat) (st : PR) (pkg : String) (res : List IncompatLog × PR),
      applyMustCompatible M fuel st pkg = some res → res.2.edges = st.edges := by
  intro fuel
  induction fuel with
  | zero =>
    intro st pkg res h
    cases h
  | succ fl ih =>
    intro st pkg res h
    simp only [applyMustCompatible] at h
    split at h
    · injection h with h2
      rw [← h2]
    · refine (mcFold_edges (applyMustCompatible M fl) ?_ _ _ _ res h).trans ?_
      · intro st2 n2 res2 h2
        exact ih st2 n2 res2 h2
      · exact mcApply_edges M pkg _ _ st

/-- `lookupEdge` through the list-level lookup. -/
theorem lookupEdge_eq_lookupE (st : PR) (n s : String) :
    lookupEdge st n s = lookupE st.edges n s := rfl

/-- Folding `banEdges` over the banned names never lowers a flag. -/
theorem unsat_foldl_banEdges : ∀ (bans : List String) (es : List (String × String × Edge))
    (n s : String), (lookupE es n s).unsatisfiable = true →
    (lookupE (bans.foldl banEdges es) n s).unsatisfiable = true := by
  intro bans
  induction bans with
  | nil => intro es n s h; exact h
  | cons b rest ih =>
    intro es n s h
    exact ih (banEdges es b) n s (unsat_lookupE_banEdges es b n s h)

/-- `apply_feature_removal` either does nothing or is a `massRemove`. -/
theorem applyFeatureRemoval_cases (feats : List String) (st : PR) :
    (applyFeatureRemoval feats st).2 = st ∨
    ∃ fns, (applyFeatureRemoval feats st).2 = massRemove st fns := by
  unfold applyFeatureRemoval
  split
  · exact Or.inl rfl
  · exact Or.inr ⟨_, rfl⟩

/-- `apply_dev_rc_ban` either does nothing or is a `massRemove`. -/
theorem applyDevRcBan_cases (devrc : Bool → Bool → Rec → Bool) (bd br : Bool) (st : PR) :
    (applyDevRcBan devrc bd br st).2 = st ∨
    ∃ fns, (applyDevRcBan devrc bd br st).2 = massRemove st fns := by
  unfold applyDevRcBan
  split
  · exact Or.inl rfl
  · exact Or.inr ⟨_, rfl⟩

/-- A state reached by removing filenames latches both relations. -/
theorem massRemove_le (st : PR) (fns : List String) :
    removedLe st (massRemove st fns) ∧ unsatLe st (massRemove st fns) := by
  constructor
  · intro i h
    exact removedAt_massRemove fns st i h
  · intro n s h
    rw [lookupEdge_congr_edges (massRemove_edges fns st) n s]
    exact h

/-- C5: across every engine operation — `insert`, `shrink_to_fit` and all
filtering passes — the removal bitmap and the per-edge unsatisfiable flags
are monotone: a true `removed[id]` stays true and a latched edge stays
latched; no operation clears either.  (Sequences of operations are monotone
by chaining these per-operation facts.) -/
theorem c5_latching (M : String → Rec → Bool) (devrc : Bool → Bool → Rec → Bool) (st : PR) :
    (∀ f r, removedLe st (insertRec st f r) ∧ unsatLe st (insertRec st f r)) ∧
    (removedLe st (shrinkToFit st) ∧ unsatLe st (shrinkToFit st)) ∧
    (removedLe st (applyBuildPrune st).2 ∧ unsatLe st (applyBuildPrune st).2) ∧
    (∀ feats, removedLe st (applyFeatureRemoval feats st).2 ∧
      unsatLe st (applyFeatureRemoval feats st).2) ∧
    (∀ bd br, removedLe st (applyDevRcBan devrc bd br st).2 ∧
      unsatLe st (applyDevRcBan devrc bd br st).2) ∧
    (∀ arch, removedLe st (applyIncompatibleArchitecture st arch).2 ∧
      unsatLe st (applyIncompatibleArchitecture st arch).2) ∧
    (∀ pn specs, removedLe st (applyMatchspecs M st pn specs).2 ∧
      unsatLe st (applyMatchspecs M st pn specs).2) ∧
    (∀ ums, removedLe st (applyUserMatchspecs M st ums).2 ∧
      unsatLe st (applyUserMatchspecs M st ums).2) ∧
    (∀ fuel pkg res, applyMustCompatible M fuel st pkg = some res →
      removedLe st res.2 ∧ unsatLe st res.2) ∧
    (∀ D, removedLe st (findUnresolveables M st D).2 ∧
      unsatLe st (findUnresolveables M st D).2) := by
  refine ⟨?_, ?_, ?_, ?_, ?_, ?_, ?_, ?_, ?_, ?_⟩
  · intro f r
    exact ⟨fun i h => removedAt_insertRec st f r i h,
           fun n s h => unsat_lookupEdge_insertRec st f r n s h⟩
  · exact ⟨fun i h => h, fun n s h => h⟩
  · exact massRemove_le st _
  · intro feats
    rcases applyFeatureRemoval_cases feats st with hc | ⟨fns, hc⟩
    · rw [hc]
      exact ⟨fun i h => h, fun n s h => h⟩
    · rw [hc]
      exact massRemove_le st fns
  · intro bd br
    rcases applyDevRcBan_cases devrc bd br st with hc | ⟨fns, hc⟩
    · rw [hc]
      exact ⟨fun i h => h, fun n s h => h⟩
    · rw [hc]
      exact massRemove_le st fns
  · intro arch
    constructor
    · intro i h
      show removedAt (massRemove st _) i = true
      exact removedAt_massRemove _ st i h
    · intro n s h
      show (lookupE ((getVirtualPackageBans arch).foldl banEdges
        (massRemove st _).edges) n s).unsatisfiable = true
      rw [massRemove_edges]
      refine unsat_foldl_banEdges _ st.edges n s ?_
      rw [← lookupEdge_eq_lookupE]
      exact h
  · intro pn specs
    constructor
    · intro i h
      exact applyMatchspecs_removed_mono M st pn specs i h
    · intro n s h
      rw [lookupEdge_congr_edges (applyMatchspecs_edges M st pn specs) n s]
      exact h
  · intro ums
    constructor
    · intro i h
      exact applyUserMatchspecs_removed_mono M st ums i h
    · intro n s h
      rw [lookupEdge_congr_edges (applyUserMatchspecs_edges M st ums) n s]
      exact h
  · intro fuel pkg res hres
    constructor
    · intro i h
      exact applyMustCompatible_removed_mono M fuel st pkg res hres i h
    · intro n s h
      rw [lookupEdge_congr_edges (applyMustCompatible_edges M fuel st pkg res hres) n s]
      exact h
  · intro D
    exact ⟨fun i h => applyEvals_removed_mono (evalsOf M st D) st i h,
           fun n s h => applyEvals_unsat_mono (evalsOf M st D) st n s h⟩

/-- Witness for C5: on a state with a removed package and a latched edge,
`insert` keeps the bit and `find_unresolveables` keeps a latched flag. -/
theorem c5_witness :
    removedAt stGoneE 0 = true ∧
    removedAt (insertRec stGoneE "q-1" recProv) 0 = true ∧
    removedAt (findUnresolveables matchAnyOnEmpty stGoneE ["p"]).2 0 = true :=
  ⟨by decide,
    ((c5_latching matchAnyOnEmpty (fun _ _ _ => false) stGoneE).1 "q-1" recProv).1 0 (by decide),
    ((c5_latching matchAnyOnEmpty (fun _ _ _ => false) stGoneE).2.2.2.2.2.2.2.2.2 ["p"]).1 0
      (by decide)⟩

/-! ## Graphs built by insert (C9) -/

/-- `getD` reads the left part of an append below its length. -/
theorem getD_append_left {α : Type} [Inhabited α] (l t : List α) (i : Nat)
    (h : i < l.length) : (l ++ t).getD i default = l.getD i default := by
  rw [List.getD_eq_getElem?_getD, List.getElem?_append_left h, ← List.getD_eq_getElem?_getD]

/-- `getD` at the first appended position reads the appended element. -/
theorem getD_append_self {α : Type} [Inhabited α] (l : List α) (a : α) :
    (l ++ [a]).getD l.length default = a := by
  rw [List.getD_eq_getElem?_getD, List.getElem?_append_right (Nat.le_refl _)]
  simp

/-- `addDepender` preserves every edge-with-depender witness. -/
theorem addDepender_preserves : ∀ (es : List (String × String × Edge)) (dn ds : String)
    (idx : Nat) (n s : String) (e : Edge) (i : Nat),
    (n, s, e) ∈ es → i ∈ e.dependers →
    ∃ e2, (n, s, e2) ∈ addDepender es dn ds idx ∧ i ∈ e2.dependers := by
  intro es
  induction es with
  | nil =>
    intro dn ds idx n s e i hm _
    cases hm
  | cons a rest ih =>
    intro dn ds idx n s e i hm hi
    obtain ⟨an, as_, ae⟩ := a
    by_cases hk : an = dn ∧ as_ = ds
    · rw [show addDepender ((an, as_, ae) :: rest) dn ds idx =
          (an, as_, { ae with dependers := ae.dependers ++ [idx] }) :: rest from by
        simp [addDepender, hk]]
      cases List.mem_cons.mp hm with
      | inl heq =>
        have h1 : n = an ∧ s = as_ ∧ e = ae := by
          injection heq with e1 e2
          injection e2 with e3 e4
          exact ⟨e1, e3, e4⟩
        obtain ⟨rfl, rfl, rfl⟩ := h1
        exact ⟨{ e with dependers := e.dependers ++ [idx] }, List.mem_cons_self _ _,
          List.mem_append_left _ hi⟩
      | inr hmr =>
        exact ⟨e, List.mem_cons_of_mem _ hmr, hi⟩
    · rw [show addDepender ((an, as_, ae) :: rest) dn ds idx =
          (an, as_, ae) :: addDepender rest dn ds idx from by simp [addDepender, hk]]
      cases List.mem_cons.mp hm with
      | inl heq =>
        exact ⟨e, heq ▸ List.mem_cons_self _ _, hi⟩
      | inr hmr =>
        obtain ⟨e2, hm2, hi2⟩ := ih dn ds idx n s e i hmr hi
        exact ⟨e2, List.mem_cons_of_mem _ hm2, hi2⟩

/-- `addDepender` registers the new depender under its key. -/
theorem addDepender_adds : ∀ (es : List (String × String × Edge)) (dn ds : String)
    (idx : Nat), ∃ e2, (dn, ds, e2) ∈ addDepender es dn ds idx ∧ idx ∈ e2.dependers := by
  intro es
  induction es with
  | nil =>
    intro dn ds idx
    exact ⟨{ unsatisfiable := false, lastSuccessfulResolution := none, dependers := [idx] },
      List.mem_cons_self _ _, List.mem_singleton.mpr rfl⟩
  | cons a rest ih =>
    intro dn ds idx
    obtain ⟨an, as_, ae⟩ := a
    by_cases hk : an = dn ∧ as_ = ds
    · rw [show addDepender ((an, as_, ae) :: rest) dn ds idx =
          (an, as_, { ae with dependers := ae.dependers ++ [idx] }) :: rest from by
        simp [addDepender, hk]]
      obtain ⟨rfl, rfl⟩ := hk
      exact ⟨{ ae with dependers := ae.dependers ++ [idx] }, List.mem_cons_self _ _,
        List.mem_append_right _ (List.mem_singleton.mpr rfl)⟩
    · rw [show addDepender ((an, as_, ae) :: rest) dn ds idx =
          (an, as_, ae) :: addDepender rest dn ds idx from by simp [addDepender, hk]]
      obtain ⟨e2, hm2, hi2⟩ := ih dn ds idx
      exact ⟨e2, List.mem_cons_of_mem _ hm2, hi2⟩

/-- The dependency fold of one `insert` preserves witnesses. -/
theorem foldl_addDepender_preserves (idx : Nat) : ∀ (ds : List String)
    (es : List (String × String × Edge)) (n s : String) (e : Edge) (i : Nat),
    (n, s, e) ∈ es → i ∈ e.dependers →
    ∃ e2, (n, s, e2) ∈ ds.foldl (fun es d =>
        addDepender es (dependsToNameSpec d).1 (dependsToNameSpec d).2 idx) es ∧
      i ∈ e2.dependers := by
  intro ds
  induction ds with
  | nil =>
    intro es n s e i hm hi
    exact ⟨e, hm, hi⟩
  | cons d rest ih =>
    intro es n s e i hm hi
    obtain ⟨e2, hm2, hi2⟩ := addDepender_preserves es _ _ idx n s e i hm hi
    exact ih _ n s e2 i hm2 hi2

/-- The dependency fold of one `insert` registers the inserted id under every
clause of the record. -/
theorem foldl_addDepender_complete (idx : Nat) : ∀ (ds : List String)
    (es : List (String × String × Edge)) (d : String), d ∈ ds →
    ∃ e2, ((dependsToNameSpec d).1, (dependsToNameSpec d).2, e2) ∈
        ds.foldl (fun es d =>
          addDepender es (dependsToNameSpec d).1 (dependsToNameSpec d).2 idx) es ∧
      idx ∈ e2.dependers := by
  intro ds
  induction ds with
  | nil =>
    intro es d hm
    cases hm
  | cons d0 rest ih =>
    intro es d hm
    cases List.mem_cons.mp hm with
    | inl heq =>
      subst heq
      obtain ⟨e2, hm2, hi2⟩ :=
        addDepender_adds es (dependsToNameSpec d).1 (dependsToNameSpec d).2 idx
      exact foldl_addDepender_preserves idx rest _ _ _ e2 idx hm2 hi2
    | inr hmr => exact ih _ d hmr

/-- `addDepender` keeps dependers bounded when the new id is. -/
theorem addDepender_bounded : ∀ (es : List (String × String × Edge)) (dn ds : String)
    (idx B : Nat), (∀ x ∈ es, ∀ i ∈ x.2.2.dependers, i < B) → idx < B →
    ∀ x ∈ addDepender es dn ds idx, ∀ i ∈ x.2.2.dependers, i < B := by
  intro es
  induction es with
  | nil =>
    intro dn ds idx B _ hidx x hx i hi
    rw [show addDepender [] dn ds idx =
        [(dn, ds, { unsatisfiable := false, lastSuccessfulResolution := none,
                    dependers := [idx] })] from rfl] at hx
    rw [List.mem_singleton.mp hx] at hi
    rw [List.mem_singleton.mp hi]
    exact hidx
  | cons a rest ih =>
    intro dn ds idx B hB hidx x hx i hi
    obtain ⟨an, as_, ae⟩ := a
    by_cases hk : an = dn ∧ as_ = ds
    · rw [show addDepender ((an, as_, ae) :: rest) dn ds idx =
          (an, as_, { ae with dependers := ae.dependers ++ [idx] }) :: rest from by
        simp [addDepender, hk]] at hx
      cases List.mem_cons.mp hx with
      | inl heq =>
        rw [heq] at hi
        cases List.mem_append.mp hi with
        | inl h1 => exact hB (an, as_, ae) (List.mem_cons_self _ _) i h1
        | inr h2 =>
          rw [List.mem_singleton.mp h2]
          exact hidx
      | inr hmr => exact hB x (List.mem_cons_of_mem _ hmr) i hi
    · rw [show addDepender ((an, as_, ae) :: rest) dn ds idx =
          (an, as_, ae) :: addDepender rest dn ds idx from by simp [addDepender, hk]] at hx
      cases List.mem_cons.mp hx with
      | inl heq =>
        rw [heq] at hi
        exact hB (an, as_, ae) (List.mem_cons_self _ _) i hi
      | inr hmr =>
        exact ih dn ds idx B (fun y hy => hB y (List.mem_cons_of_mem _ hy)) hidx x hmr i hi

/-- The dependency fold of one `insert` keeps dependers bounded. -/
theorem foldl_addDepender_bounded (idx B : Nat) (hidx : idx < B) : ∀ (ds : List String)
    (es : List (String × String × Edge)),
    (∀ x ∈ es, ∀ i ∈ x.2.2.dependers, i < B) →
    ∀ x ∈ ds.foldl (fun es d =>
        addDepender es (dependsToNameSpec d).1 (dependsToNameSpec d).2 idx) es,
      ∀ i ∈ x.2.2.dependers, i < B := by
  intro ds
  induction ds with
  | nil => intro es hB x hx i hi; exact hB x hx i hi
  | cons d rest ih =>
    intro es hB x hx i hi
    exact ih _ (addDepender_bounded es _ _ idx B hB hidx) x hx i hi

/-- `insert` preserves dependency-edge completeness. -/
theorem insertRec_depComplete (st : PR) (f : String) (r : Rec)
    (h : depEdgeComplete st) : depEdgeComplete (insertRec st f r) := by
  intro i hi d hd
  have hlen : (insertRec st f r).packageMetadatas.length =
      st.packageMetadatas.length + 1 := by
    show (st.packageMetadatas ++ [({ filename := f, record := r } : PM)]).length = _
    rw [List.length_append]
    rfl
  rw [hlen] at hi
  by_cases hio : i < st.packageMetadatas.length
  · have hrec : recAt (insertRec st f r) i = recAt st i := by
      show ((st.packageMetadatas ++ [({ filename := f, record := r } : PM)]).getD i default).record = _
      rw [getD_append_left _ _ i hio]
      rfl
    rw [hrec] at hd
    obtain ⟨e, hm, hdep⟩ := h i hio d hd
    exact foldl_addDepender_preserves st.packageMetadatas.length r.depends st.edges
      _ _ e i hm hdep
  · have hieq : i = st.packageMetadatas.length := by omega
    subst hieq
    have hrec : recAt (insertRec st f r) st.packageMetadatas.length = r := by
      show ((st.packageMetadatas ++ [({ filename := f, record := r } : PM)]).getD
        st.packageMetadatas.length default).record = r
      rw [getD_append_self]
    rw [hrec] at hd
    exact foldl_addDepender_complete st.packageMetadatas.length r.depends st.edges d hd

/-- `insert` keeps dependers bounded. -/
theorem insertRec_bounded (st : PR) (f : String) (r : Rec)
    (h : dependersBounded st) : dependersBounded (insertRec st f r) := by
  intro x hx i hi
  have hlen : (insertRec st f r).packageMetadatas.length =
      st.packageMetadatas.length + 1 := by
    show (st.packageMetadatas ++ [({ filename := f, record := r } : PM)]).length = _
    rw [List.length_append]
    rfl
  rw [hlen]
  refine foldl_addDepender_bounded st.packageMetadatas.length
    (st.packageMetadatas.length + 1) (by omega) r.depends st.edges ?_ x hx i hi
  intro y hy j hj
  exact Nat.lt_succ_of_lt (h y hy j hj)

/-- Graphs built by `insert` satisfy dependency-edge completeness and
depender boundedness; their package table is the inserted list and the
bitmap is as long as the table. -/
theorem buildRelations_wf (rs : List (String × Rec)) :
    depEdgeComplete (buildRelations rs) ∧ dependersBounded (buildRelations rs) ∧
    (buildRelations rs).packageMetadatas =
      rs.map (fun fr => { filename := fr.1, record := fr.2 }) ∧
    (buildRelations rs).removed.length = (buildRelations rs).packageMetadatas.length := by
  have main : ∀ (l : List (String × Rec)) (st : PR), depEdgeComplete st →
      dependersBounded st → st.removed.length = st.packageMetadatas.length →
      depEdgeComplete (l.foldl (fun st fr => insertRec st fr.1 fr.2) st) ∧
      dependersBounded (l.foldl (fun st fr => insertRec st fr.1 fr.2) st) ∧
      (l.foldl (fun st fr => insertRec st fr.1 fr.2) st).packageMetadatas =
        st.packageMetadatas ++ l.map (fun fr => { filename := fr.1, record := fr.2 }) ∧
      (l.foldl (fun st fr => insertRec st fr.1 fr.2) st).removed.length =
        (l.foldl (fun st fr => insertRec st fr.1 fr.2) st).packageMetadatas.length := by
    intro l
    induction l with
    | nil =>
      intro st h1 h2 h3
      exact ⟨h1, h2, by simp, h3⟩
    | cons fr rest ih =>
      intro st h1 h2 h3
      have h3' : (insertRec st fr.1 fr.2).removed.length =
          (insertRec st fr.1 fr.2).packageMetadatas.length := by
        show (st.removed ++ [false]).length =
          (st.packageMetadatas ++ [({ filename := fr.1, record := fr.2 } : PM)]).length
        rw [List.length_append, List.length_append, h3]
        rfl
      obtain ⟨g1, g2, g3, g4⟩ := ih (insertRec st fr.1 fr.2)
        (insertRec_depComplete st fr.1 fr.2 h1) (insertRec_bounded st fr.1 fr.2 h2) h3'
      refine ⟨g1, g2, ?_, g4⟩
      rw [List.foldl_cons, g3]
      show st.packageMetadatas ++ [({ filename := fr.1, record := fr.2 } : PM)] ++ _ = _
      rw [List.append_assoc]
      rfl
  refine main rs emptyPR ?_ ?_ rfl
  · intro i hi
    exact absurd hi (by simp [emptyPR])
  · intro x hx
    exact absurd hx (by simp [emptyPR])

/-- With pairwise-distinct filenames, looking an id's filename back up in the
table yields the id. -/
theorem findIdx_filename : ∀ (l : List PM),
    (l.map (fun pm => pm.filename)).Nodup → ∀ i, i < l.length →
    l.findIdx (fun pm => pm.filename == (l.getD i default).filename) = i := by
  intro l
  induction l with
  | nil =>
    intro _ i hi
    exact absurd hi (by simp)
  | cons a t ih =>
    intro hnd i hi
    rw [List.map_cons, List.nodup_cons] at hnd
    cases i with
    | zero =>
      rw [List.findIdx_cons]
      have hp : (a.filename == ((a :: t).getD 0 default).filename) = true := by
        rw [List.getD_cons_zero]
        exact beq_self_eq_true a.filename
      rw [hp]
      rfl
    | succ i2 =>
      have ht : ((a :: t).getD (i2 + 1) default) = t.getD i2 default := by
        rw [List.getD_cons_succ]
      have hi2 : i2 < t.length := by
        simp at hi
        omega
      have hmem : (t.getD i2 default).filename ∈ t.map (fun pm => pm.filename) :=
        List.mem_map.mpr ⟨t.getD i2 default,
          List.getD_eq_getElem t default hi2 ▸ List.getElem_mem hi2, rfl⟩
      have hpa : (a.filename == (t.getD i2 default).filename) = false := by
        rw [beq_eq_false_iff_ne]
        intro hc
        exact hnd.1 (hc ▸ hmem)
      rw [List.findIdx_cons, ht, hpa]
      have := ih hnd.2 i2 hi2
      rw [this]
      rfl

/-- `filename_to_metadata` inverts `filenameAt` on in-range ids under
filename uniqueness. -/
theorem filenameIdx_filenameAt (st : PR)
    (hnd : (st.packageMetadatas.map (fun pm => pm.filename)).Nodup)
    (i : Nat) (hi : i < st.packageMetadatas.length) :
    filenameIdx st (filenameAt st i) = i :=
  findIdx_filename st.packageMetadatas hnd i hi

/-- Setting an in-range bit makes it read true. -/
theorem getD_set_self_true (l : List Bool) (j : Nat) (hj : j < l.length) :
    (l.set j true).getD j false = true := by
  rw [List.getD_eq_getElem?_getD, List.getElem?_set_self]
  · simp [hj]
  · exact hj

/-- Every filename in the removal batch has its bit set by `massRemove`. -/
theorem removedAt_massRemove_mem : ∀ (fns : List String) (st : PR) (f : String),
    f ∈ fns → filenameIdx st f < st.removed.length →
    removedAt (massRemove st fns) (filenameIdx st f) = true := by
  intro fns
  induction fns with
  | nil =>
    intro st f hm _
    cases hm
  | cons g rest ih =>
    intro st f hm hlt
    cases List.mem_cons.mp hm with
    | inl heq =>
      subst heq
      have h1 : removedAt (removeByFilename st f) (filenameIdx st f) = true :=
        getD_set_self_true st.removed _ hlt
      exact removedAt_massRemove rest (removeByFilename st f) _ h1
    | inr hmr =>
      have hlt2 : filenameIdx (removeByFilename st g) f <
          (removeByFilename st g).removed.length := by
        show filenameIdx st f < (st.removed.set _ true).length
        rw [List.length_set]
        exact hlt
      exact ih (removeByFilename st g) f hmr hlt2

/-- Folding `banEdges` over a name list latches exactly the edges under those
names, pointwise. -/
theorem foldl_banEdges_eq_map : ∀ (bans : List String)
    (es : List (String × String × Edge)),
    bans.foldl banEdges es = es.map (fun x =>
      if x.1 ∈ bans then (x.1, x.2.1, { x.2.2 with unsatisfiable := true }) else x) := by
  intro bans
  induction bans with
  | nil =>
    intro es
    show es = _
    rw [show (fun (x : String × String × Edge) =>
        if x.1 ∈ ([] : List String) then (x.1, x.2.1, { x.2.2 with unsatisfiable := true })
        else x) = fun x => x from by
      funext x
      rw [if_neg (List.not_mem_nil x.1)]]
    rw [List.map_id']
  | cons b rest ih =>
    intro es
    rw [List.foldl_cons, ih (banEdges es b)]
    unfold banEdges
    rw [List.map_map]
    refine List.map_congr_left ?_
    intro x _
    by_cases hb : x.1 = b
    · by_cases hr : x.1 ∈ rest
      · simp [Function.comp, hb, hr]
      · simp [Function.comp, hb, hr]
    · by_cases hr : x.1 ∈ rest
      · simp [Function.comp, hb, hr]
      · simp [Function.comp, hb, hr]

/-- States agreeing on the bitmap agree on `removedAt`. -/
theorem removedAt_congr {a b : PR} (h : a.removed = b.removed) (i : Nat) :
    removedAt a i = removedAt b i := by
  unfold removedAt
  rw [h]

/-- C9: on a graph built by `insert` with pairwise-distinct filenames, after
`apply_incompatible_architecture(A)` every edge keyed by a banned virtual
name is unsatisfiable and every depender of such an edge is removed, hence
no surviving record's depends list names a banned virtual; the banned
virtuals are `__osx`, `__win` for `linux`; `__linux`, `__win`, `__glibc` for
`osx` and `freebsd`; `__linux`, `__unix`, `__glibc`, `__osx` for `win`; and
empty for any other OS token, in which case the pass removes nothing and
leaves the state unchanged. -/
theorem c9_arch_ban (rs : List (String × Rec)) (arch : String)
    (hnd : ((buildRelations rs).packageMetadatas.map (fun pm => pm.filename)).Nodup) :
    (∀ x ∈ (applyIncompatibleArchitecture (buildRelations rs) arch).2.edges,
      x.1 ∈ getVirtualPackageBans arch → x.2.2.unsatisfiable = true) ∧
    (∀ x ∈ (buildRelations rs).edges, x.1 ∈ getVirtualPackageBans arch →
      ∀ i ∈ x.2.2.dependers,
        removedAt (applyIncompatibleArchitecture (buildRelations rs) arch).2 i = true) ∧
    (∀ i, i < (buildRelations rs).packageMetadatas.length →
      removedAt (applyIncompatibleArchitecture (buildRelations rs) arch).2 i = false →
      ∀ d ∈ (recAt (buildRelations rs) i).depends,
        ¬ (dependsToNameSpec d).1 ∈ getVirtualPackageBans arch) ∧
    (osToken arch = "linux" → getVirtualPackageBans arch = ["__osx", "__win"]) ∧
    (osToken arch = "osx" ∨ osToken arch = "freebsd" →
      getVirtualPackageBans arch = ["__linux", "__win", "__glibc"]) ∧
    (osToken arch = "win" →
      getVirtualPackageBans arch = ["__linux", "__unix", "__glibc", "__osx"]) ∧
    (getVirtualPackageBans arch = [] →
      applyIncompatibleArchitecture (buildRelations rs) arch = ([], buildRelations rs)) ∧
    (osToken arch ≠ "linux" → osToken arch ≠ "osx" → osToken arch ≠ "freebsd" →
      osToken arch ≠ "win" → getVirtualPackageBans arch = []) := by
  obtain ⟨hdep, hbound, hmeta, hdens⟩ := buildRelations_wf rs
  set st := buildRelations rs with hst
  have hremres : (applyIncompatibleArchitecture st arch).2.removed =
      (massRemove st (((getVirtualPackageBans arch).flatMap (fun dn =>
        (st.edges.filter (fun x => x.1 == dn)).flatMap (fun x =>
          x.2.2.dependers.map (fun i =>
            ({ filename := filenameAt st i, packageName := (recAt st i).name,
               virtualPackage := dn, actualArchitecture := arch } : ArchLog))))).map
        (·.filename))).removed := rfl
  have hedges : (applyIncompatibleArchitecture st arch).2.edges =
      (getVirtualPackageBans arch).foldl banEdges st.edges := by
    show (getVirtualPackageBans arch).foldl banEdges (massRemove st _).edges = _
    rw [massRemove_edges]
  have hb : ∀ x ∈ st.edges, x.1 ∈ getVirtualPackageBans arch →
      ∀ i ∈ x.2.2.dependers,
        removedAt (applyIncompatibleArchitecture st arch).2 i = true := by
    intro x hx hxb i hi
    have hibound : i < st.packageMetadatas.length := hbound x hx i hi
    rw [removedAt_congr hremres i]
    have hfi : filenameIdx st (filenameAt st i) = i := filenameIdx_filenameAt st hnd i hibound
    rw [← hfi]
    refine removedAt_massRemove_mem _ st (filenameAt st i) ?_ ?_
    · refine List.mem_map.mpr ?_
      refine ⟨{ filename := filenameAt st i, packageName := (recAt st i).name,
                virtualPackage := x.1, actualArchitecture := arch }, ?_, rfl⟩
      refine List.mem_flatMap.mpr ⟨x.1, hxb, ?_⟩
      refine List.mem_flatMap.mpr ⟨x, List.mem_filter.mpr ⟨hx, by simp⟩, ?_⟩
      exact List.mem_map.mpr ⟨i, hi, rfl⟩
    · rw [hfi, hdens]
      exact hibound
  refine ⟨?_, hb, ?_, ?_, ?_, ?_, ?_, ?_⟩
  · intro x hx hxb
    rw [hedges, foldl_banEdges_eq_map] at hx
    obtain ⟨y, hy, hxy⟩ := List.mem_map.mp hx
    by_cases hyb : y.1 ∈ getVirtualPackageBans arch
    · rw [if_pos hyb] at hxy
      rw [← hxy]
    · rw [if_neg hyb] at hxy
      rw [← hxy] at hxb
      exact absurd hxb hyb
  · intro i hi hsurv d hd hbanned
    obtain ⟨e, hm, hdep2⟩ := hdep i hi d hd
    have := hb ((dependsToNameSpec d).1, (dependsToNameSpec d).2, e) hm hbanned i hdep2
    rw [this] at hsurv
    exact Bool.noConfusion hsurv
  · intro h
    unfold getVirtualPackageBans
    rw [h]
    decide
  · intro h
    unfold getVirtualPackageBans
    cases h with
    | inl h2 =>
      rw [h2]
      decide
    | inr h2 =>
      rw [h2]
      decide
  · intro h
    unfold getVirtualPackageBans
    rw [h]
    decide
  · intro h
    unfold applyIncompatibleArchitecture
    rw [h]
    rfl
  · intro h1 h2 h3 h4
    unfold getVirtualPackageBans
    rw [if_neg, if_neg, if_neg]
    · exact h4
    · exact h1
    · intro hc
      cases hc with
      | inl hc2 => exact h2 hc2
      | inr hc2 => exact h3 hc2

/-- Witness for C9: on `linux-64`, the `__win` edge's depender is removed and
the ban table maps `linux` to `__osx`, `__win`. -/
theorem c9_witness :
    ((buildRelations rsArch).packageMetadatas.map (fun pm => pm.filename)).Nodup ∧
    getVirtualPackageBans "linux-64" = ["__osx", "__win"] ∧
    removedAt (applyIncompatibleArchitecture (buildRelations rsArch) "linux-64").2 0 = true :=
  ⟨by decide,
    (c9_arch_ban rsArch "linux-64" (by decide)).2.2.2.1 (by decide),
    (c9_arch_ban rsArch "linux-64" (by decide)).2.1 ("__win", "", edgeFresh) (by decide)
      (by decide) 0 (by decide)⟩

end CondaCuration
